import Mathlib

/-!
Verification of the graph-layout and cycle-resolution engine of the
Design-A-Graph repository.

The definitions below are a shallow embedding of the TypeScript source:
  * src/types.ts                  (data model, `topoSort`)
  * src/utils/layoutUtils.ts      (`calculateBarycenter`, `optimizeLayerOrdering`,
                                   `ensureAcyclicGraph`, `topoSort`, `hasCycle`,
                                   `breakCycles`)
  * src/components/GraphView.tsx  (layer assignment, node sizing, port placement,
                                   sibling grouping and edge routing)
  * src/services/geminiService.ts (`normalize`)

JavaScript numbers are modelled as rationals (`ℚ`) where fractional values
occur, and as `Nat`/`Int` where the program only ever produces integers.
JavaScript `Map`/`Set` objects keyed by strings are modelled by the pure
functions they compute; where iteration or insertion order is observable the
embedding follows it and says so.  Recursive traversals are given explicit
fuel; every theorem that depends on the loop running to completion proves
that the chosen fuel suffices.
-/

namespace DAG

/-- Graph node (src/types.ts, `Node`), restricted to the fields the layout
engine reads.  `x`/`y` are the mutable layout coordinates (absent before
layout, hence `Option`). -/
structure Node where
  id : String
  label : String := ""
  description : String := ""
  type : String := ""
  moduleType : Option String := none
  outputs : List String := []
  x : Option ℚ := none
  y : Option ℚ := none
deriving DecidableEq

/-- Graph edge (src/types.ts, `Edge`). -/
structure Edge where
  id : String
  source : String
  target : String
  label : String
deriving DecidableEq

/-- src/types.ts, `GraphData`. -/
structure GraphData where
  nodes : List Node
  edges : List Edge
deriving DecidableEq

/-- Whether `x` is a declared node id.  In `topoSort` both `adjList` and
`inDegree` are keyed by exactly the declared ids, so `adjList.has(x)` and
`inDegree.has(x)` are both this test. -/
def declared (g : GraphData) (x : String) : Bool :=
  g.nodes.any (fun n => n.id == x)

/-- The edges `topoSort` actually registers: the `edges.forEach` body runs
only under `if (adjList.has(edge.source) && inDegree.has(edge.target))`
(src/utils/layoutUtils.ts line 155 / src/types.ts line 60). -/
def effEdges (g : GraphData) : List Edge :=
  g.edges.filter (fun e => declared g e.source && declared g e.target)

/-- `adjList.get(u)` after the build loop: one entry per registered edge with
source `u`, in edge-list order. -/
def adj (g : GraphData) (u : String) : List String :=
  ((effEdges g).filter (fun e => e.source == u)).map (fun e => e.target)

/-- `inDegree.get(v)` after the build loop: the number of registered edges
into `v`.  Kept as `Int` because the running value is decremented during the
loop. -/
def inDeg (g : GraphData) (v : String) : Int :=
  (((effEdges g).countP (fun e => e.target == v) : Nat) : Int)

/-- `nodes.map(n => n.id)`. -/
def nodeIds (g : GraphData) : List String := g.nodes.map (fun n => n.id)

/-- `const queue = nodeIds.filter(id => inDegree.get(id) === 0)`. -/
def initQueue (g : GraphData) : List String :=
  (nodeIds g).filter (fun i => inDeg g i == 0)

/-- The inner `adjList.get(u)?.forEach(v => ...)` pass of `topoSort`:
decrement each neighbour's in-degree in order, collecting (in order) the
neighbours whose in-degree reaches exactly zero.  Returns the updated
in-degree table and the list of newly enqueued ids. -/
def processNeighbors : List String → (String → Int) → (String → Int) × List String
  | [], deg => (deg, [])
  | v :: vs, deg =>
    let d := deg v - 1
    let deg' := fun x => if x = v then d else deg x
    let r := processNeighbors vs deg'
    (r.1, (if d = 0 then [v] else []) ++ r.2)

/-- The `while (queue.length > 0)` loop of `topoSort`, with explicit fuel.
Each round shifts `u` from the queue head, appends it to the result and
enqueues the neighbours newly at in-degree zero.  Returns the result list
and the remaining queue (empty whenever the fuel was sufficient). -/
def kahnLoop (g : GraphData) :
    Nat → List String → List String → (String → Int) → List String × List String
  | 0, queue, result, _ => (result, queue)
  | _ + 1, [], result, _ => (result, [])
  | fuel + 1, u :: rest, result, deg =>
    let r := processNeighbors (adj g u) deg
    kahnLoop g fuel (rest ++ r.2) (result ++ [u]) r.1

/-- The `result` list produced by the loop.  `g.nodes.length + 1` rounds of
fuel always suffice: each round removes one queue entry and (as proved below
for graphs with distinct node ids) every id is enqueued at most once. -/
def kahnResult (g : GraphData) : List String :=
  (kahnLoop g (g.nodes.length + 1) (initQueue g) [] (inDeg g)).1

/-- src/utils/layoutUtils.ts lines 143-181 / src/types.ts lines 48-86,
`topoSort`: Kahn's algorithm; `throw new Error('Graph has a cycle')` when the
loop ordered fewer ids than there are nodes, modelled as `Except.error`. -/
def topoSort (g : GraphData) : Except String (List String) :=
  if (kahnResult g).length = g.nodes.length then .ok (kahnResult g)
  else .error "Graph has a cycle"

/-- The edge relation `topoSort` operates on: a registered edge from `u`
to `v`. -/
def edgeRel (g : GraphData) (u v : String) : Prop :=
  ∃ e ∈ effEdges g, e.source = u ∧ e.target = v

/-- The graph (restricted to edges between declared nodes) has no directed
cycle. -/
def Acyclic (g : GraphData) : Prop :=
  ∀ u, ¬ Relation.TransGen (edgeRel g) u u

theorem declared_iff {g : GraphData} {x : String} :
    declared g x = true ↔ x ∈ nodeIds g := by
  simp [declared, nodeIds, List.any_eq_true]

theorem mem_adj {g : GraphData} {u x : String} :
    x ∈ adj g u ↔ ∃ e ∈ effEdges g, e.source = u ∧ e.target = x := by
  simp only [adj, List.mem_map, List.mem_filter]
  constructor
  · rintro ⟨e, ⟨he, hs⟩, ht⟩
    exact ⟨e, he, by simpa using hs, ht⟩
  · rintro ⟨e, he, hs, ht⟩
    exact ⟨e, ⟨he, by simpa using hs⟩, ht⟩

theorem adj_declared {g : GraphData} {u x : String} (h : x ∈ adj g u) :
    x ∈ nodeIds g := by
  rcases mem_adj.mp h with ⟨e, he, _, ht⟩
  have hmem : e ∈ g.edges ∧ (declared g e.source && declared g e.target) = true := by
    simpa [effEdges] using List.mem_filter.mp he
  rw [← declared_iff, ← ht]
  exact ((Bool.and_eq_true _ _).mp hmem.2).2

theorem processNeighbors_deg (vs : List String) (deg : String → Int) (x : String) :
    (processNeighbors vs deg).1 x = deg x - (vs.count x : Nat) := by
  induction vs generalizing deg with
  | nil => simp [processNeighbors]
  | cons v vs ih =>
    simp only [processNeighbors, List.count_cons]
    rw [ih]
    by_cases h : x = v
    · subst h; simp
      omega
    · have : ¬(v == x) = true := by simpa using fun h' => h h'.symm
      simp [h, this]

theorem processNeighbors_mem (vs : List String) (deg : String → Int) (x : String) :
    x ∈ (processNeighbors vs deg).2 ↔ 0 < deg x ∧ deg x ≤ (vs.count x : Nat) := by
  induction vs generalizing deg with
  | nil => simp [processNeighbors]
  | cons v vs ih =>
    simp only [processNeighbors, List.mem_append, List.count_cons]
    rw [ih]
    by_cases h : x = v
    · subst h
      by_cases hd : deg x - 1 = 0 <;>
        · simp [hd]
          omega
    · have hne : (v == x) = false := by simpa using fun h' => h h'.symm
      rcases Decidable.em (deg v - 1 = 0) with hd | hd <;> simp [h, hne, hd]

theorem processNeighbors_nodup (vs : List String) (deg : String → Int) :
    (processNeighbors vs deg).2.Nodup := by
  induction vs generalizing deg with
  | nil => simp [processNeighbors]
  | cons v vs ih =>
    simp only [processNeighbors]
    by_cases hd : deg v - 1 = 0
    · simp only [if_pos hd, List.singleton_append, List.nodup_cons]
      refine ⟨fun hmem => ?_, ih _⟩
      have := (processNeighbors_mem vs _ v).mp hmem
      simp [hd] at this
    · simpa [if_neg hd] using ih _

theorem processNeighbors_sub {vs : List String} {deg : String → Int} {x : String}
    (h : x ∈ (processNeighbors vs deg).2) : x ∈ vs := by
  rcases (processNeighbors_mem vs deg x).mp h with ⟨h1, h2⟩
  have hc : 0 < vs.count x := by omega
  exact List.count_pos_iff.mp hc

/-- Number of registered edges into `v`. -/
def inDegN (g : GraphData) (v : String) : Nat :=
  (effEdges g).countP (fun e => e.target == v)

theorem inDeg_eq (g : GraphData) (v : String) : inDeg g v = (inDegN g v : Int) := rfl

/-- Number of registered edges into `v` whose source is in `result`. -/
def doneCount (g : GraphData) (result : List String) (v : String) : Nat :=
  (effEdges g).countP (fun e => e.target == v && result.contains e.source)

/-- Number of registered edges into `v` whose source is not in `result`. -/
def strayCount (g : GraphData) (result : List String) (v : String) : Nat :=
  (effEdges g).countP (fun e => e.target == v && !(result.contains e.source))

/-- Number of registered edges from `u` to `v`. -/
def pairCount (g : GraphData) (u v : String) : Nat :=
  (effEdges g).countP (fun e => e.target == v && e.source == u)

theorem countP_or_disjoint (l : List Edge) (p q : Edge → Bool)
    (h : ∀ e ∈ l, ¬(p e = true ∧ q e = true)) :
    l.countP (fun e => p e || q e) = l.countP p + l.countP q := by
  induction l with
  | nil => simp
  | cons a l ih =>
    simp only [List.countP_cons]
    rw [ih (fun e he => h e (List.mem_cons_of_mem _ he))]
    have ha := h a (List.mem_cons_self a l)
    by_cases hp : p a <;> by_cases hq : q a <;> simp [hp, hq] at ha ⊢ <;> omega

theorem countP_split (l : List Edge) (p q : Edge → Bool) :
    l.countP p = l.countP (fun e => p e && q e) + l.countP (fun e => p e && !q e) := by
  induction l with
  | nil => simp
  | cons a l ih =>
    simp only [List.countP_cons]
    rw [ih]
    by_cases hp : p a <;> by_cases hq : q a <;> simp [hp, hq] <;> omega

theorem inDegN_split (g : GraphData) (result : List String) (v : String) :
    inDegN g v = doneCount g result v + strayCount g result v := by
  simpa [inDegN, doneCount, strayCount] using
    countP_split (effEdges g) (fun e => e.target == v)
      (fun e => result.contains e.source)

theorem adj_count (g : GraphData) (u v : String) :
    (adj g u).count v = pairCount g u v := by
  simp only [adj, pairCount, List.count_eq_countP, List.countP_map, List.countP_filter]
  apply List.countP_congr
  intro e _
  simp [Function.comp]

theorem doneCount_append (g : GraphData) {result : List String} {u : String}
    (hu : u ∉ result) (v : String) :
    doneCount g (result ++ [u]) v = doneCount g result v + pairCount g u v := by
  unfold doneCount pairCount
  rw [← countP_or_disjoint (effEdges g) _ _ ?_]
  · apply List.countP_congr
    intro e _
    simp only [Bool.and_eq_true, Bool.or_eq_true, List.elem_iff, List.mem_append,
      List.mem_singleton, beq_iff_eq]
    tauto
  · rintro e _ ⟨h1, h2⟩
    simp only [Bool.and_eq_true, List.elem_iff, beq_iff_eq] at h1 h2
    exact hu (h2.2 ▸ h1.2)

theorem strayCount_eq_zero (g : GraphData) (result : List String) (v : String) :
    strayCount g result v = 0 ↔
      ∀ e ∈ effEdges g, e.target = v → e.source ∈ result := by
  rw [strayCount, List.countP_eq_zero]
  constructor
  · intro h e he ht
    have := h e he
    simp only [Bool.and_eq_true, Bool.not_eq_true', List.elem_iff, beq_iff_eq] at this
    by_contra hc
    exact this ⟨ht, by simpa [List.elem_iff] using hc⟩
  · intro h e he
    simp only [Bool.and_eq_true, Bool.not_eq_true', not_and, beq_iff_eq]
    intro ht
    simpa [List.elem_iff] using h e he ht

theorem pairCount_pos {g : GraphData} {u v : String} {e : Edge}
    (he : e ∈ effEdges g) (hs : e.source = u) (ht : e.target = v) :
    0 < pairCount g u v := by
  rw [pairCount, List.countP_pos_iff]
  exact ⟨e, he, by simp [hs, ht]⟩

theorem nodup_length_le {l l' : List String} (h : l.Nodup) (hs : ∀ x ∈ l, x ∈ l') :
    l.length ≤ l'.length := by
  calc l.length = l.toFinset.card := (List.toFinset_card_of_nodup h).symm
    _ ≤ l'.toFinset.card := by
        apply Finset.card_le_card
        intro x hx
        simp only [List.mem_toFinset] at hx ⊢
        exact hs x hx
    _ ≤ l'.length := l'.toFinset_card_le

/-- Loop invariant of Kahn's algorithm as implemented by `topoSort`:
`queue`/`result`/`deg` are the live loop variables. -/
structure KState (g : GraphData) (queue result : List String) (deg : String → Int) : Prop where
  deg_eq : ∀ v, deg v = inDeg g v - (doneCount g result v : Nat)
  nd_res : result.Nodup
  nd_q : queue.Nodup
  disj : ∀ x, x ∈ result → x ∉ queue
  sub_res : ∀ x ∈ result, x ∈ nodeIds g
  sub_q : ∀ x ∈ queue, x ∈ nodeIds g
  mem_iff : ∀ v ∈ nodeIds g,
    (v ∈ result ∨ v ∈ queue) ↔ ∀ e ∈ effEdges g, e.target = v → e.source ∈ result
  sorted : ∀ e ∈ effEdges g, e.target ∈ result →
    e.source ∈ result ∧ List.indexOf e.source result < List.indexOf e.target result

theorem kstate_step {g : GraphData} {u : String} {rest result : List String}
    {deg : String → Int} (H : KState g (u :: rest) result deg) :
    KState g (rest ++ (processNeighbors (adj g u) deg).2) (result ++ [u])
      (processNeighbors (adj g u) deg).1 := by
  obtain ⟨hdeg, hndR, hndQ, hdisj, hsubR, hsubQ, hmem, hsort⟩ := H
  have huq : u ∈ u :: rest := List.mem_cons_self u rest
  have huR : u ∉ result := fun hu => hdisj u hu huq
  have hu_nodes : u ∈ nodeIds g := hsubQ u huq
  have hfresh : ∀ x ∈ adj g u, x ∉ result ∧ x ∉ u :: rest := by
    intro x hx
    have hxn : x ∈ nodeIds g := adj_declared hx
    rcases mem_adj.mp hx with ⟨e, he, hs, ht⟩
    constructor
    · intro hxr
      exact huR (hs ▸ (hmem x hxn).mp (Or.inl hxr) e he ht)
    · intro hxq
      exact huR (hs ▸ (hmem x hxn).mp (Or.inr hxq) e he ht)
  have hzs_adj : ∀ x ∈ (processNeighbors (adj g u) deg).2, x ∈ adj g u :=
    fun x hx => processNeighbors_sub hx
  have hdeg' : ∀ v, (processNeighbors (adj g u) deg).1 v =
      inDeg g v - (doneCount g (result ++ [u]) v : Nat) := by
    intro v
    rw [processNeighbors_deg, hdeg v, adj_count, doneCount_append g huR]
    push_cast
    ring
  refine ⟨hdeg', ?_, ?_, ?_, ?_, ?_, ?_, ?_⟩
  · simp only [List.nodup_append, List.nodup_cons, List.nodup_nil]
    exact ⟨hndR, by simp, by simpa [List.disjoint_singleton] using huR⟩
  · rw [List.nodup_append]
    refine ⟨(List.nodup_cons.mp hndQ).2, processNeighbors_nodup _ _, ?_⟩
    intro x hxr hxz
    exact (hfresh x (hzs_adj x hxz)).2 (List.mem_cons_of_mem _ hxr)
  · intro x hx hx'
    rcases List.mem_append.mp hx with hx | hx
    · rcases List.mem_append.mp hx' with h' | h'
      · exact hdisj x hx (List.mem_cons_of_mem _ h')
      · exact (hfresh x (hzs_adj x h')).1 hx
    · have hxu : x = u := by simpa using hx
      subst hxu
      rcases List.mem_append.mp hx' with h' | h'
      · exact (List.nodup_cons.mp hndQ).1 h'
      · exact (hfresh x (hzs_adj x h')).2 huq
  · intro x hx
    rcases List.mem_append.mp hx with hx | hx
    · exact hsubR x hx
    · have : x = u := by simpa using hx
      exact this ▸ hu_nodes
  · intro x hx
    rcases List.mem_append.mp hx with hx | hx
    · exact hsubQ x (List.mem_cons_of_mem _ hx)
    · exact adj_declared (hzs_adj x hx)
  · intro v hv
    constructor
    · intro hmem'
      rcases hmem' with hvr | hvq
      · rcases List.mem_append.mp hvr with hvr | hvr
        · intro e he ht
          exact List.mem_append_left _ ((hmem v hv).mp (Or.inl hvr) e he ht)
        · have : v = u := by simpa using hvr
          subst this
          intro e he ht
          exact List.mem_append_left _ ((hmem v hv).mp (Or.inr huq) e he ht)
      · rcases List.mem_append.mp hvq with hvq | hvq
        · intro e he ht
          exact List.mem_append_left _
            ((hmem v hv).mp (Or.inr (List.mem_cons_of_mem _ hvq)) e he ht)
        · -- v was newly enqueued: its remaining in-degree was consumed this round
          rcases (processNeighbors_mem _ deg v).mp hvq with ⟨h1, h2⟩
          rw [adj_count] at h2
          have hstray : strayCount g (result ++ [u]) v = 0 := by
            have hsplit := inDegN_split g (result ++ [u]) v
            have hdone := doneCount_append g huR v
            have hdv := hdeg v
            rw [inDeg_eq] at hdv
            omega
          intro e he ht
          exact (strayCount_eq_zero g _ v).mp hstray e he ht
    · intro hall
      have hstray : strayCount g (result ++ [u]) v = 0 :=
        (strayCount_eq_zero g _ v).mpr hall
      by_cases hold : v ∈ result ∨ v ∈ u :: rest
      · rcases hold with h' | h'
        · exact Or.inl (List.mem_append_left _ h')
        · rcases List.mem_cons.mp h' with h' | h'
          · exact Or.inl (List.mem_append_right _ (by simp [h']))
          · exact Or.inr (List.mem_append_left _ h')
      · push_neg at hold
        have hnotall : ¬ ∀ e ∈ effEdges g, e.target = v → e.source ∈ result := by
          intro hc
          rcases (hmem v hv).mpr hc with h' | h'
          · exact hold.1 h'
          · exact hold.2 h'
        push_neg at hnotall
        rcases hnotall with ⟨e, he, ht, hsrc⟩
        have hsu : e.source = u := by
          rcases List.mem_append.mp (hall e he ht) with h' | h'
          · exact absurd h' hsrc
          · simpa using h'
        have hpair : 0 < pairCount g u v := pairCount_pos he hsu ht
        have hv_zs : v ∈ (processNeighbors (adj g u) deg).2 := by
          rw [processNeighbors_mem, adj_count]
          have hsplit := inDegN_split g (result ++ [u]) v
          have hdone := doneCount_append g huR v
          have hdv := hdeg v
          rw [inDeg_eq] at hdv
          omega
        exact Or.inr (List.mem_append_right _ hv_zs)
  · intro e he ht
    rcases List.mem_append.mp ht with ht' | ht'
    · rcases hsort e he ht' with ⟨hs1, hs2⟩
      refine ⟨List.mem_append_left _ hs1, ?_⟩
      rw [List.indexOf_append_of_mem hs1, List.indexOf_append_of_mem ht']
      exact hs2
    · have htu : e.target = u := by simpa using ht'
      have hs1 : e.source ∈ result := (hmem u hu_nodes).mp (Or.inr huq) e he htu
      refine ⟨List.mem_append_left _ hs1, ?_⟩
      rw [List.indexOf_append_of_mem hs1, htu, List.indexOf_append_of_not_mem huR]
      have : List.indexOf e.source result < result.length :=
        List.indexOf_lt_length.mpr hs1
      simp only [List.indexOf_cons_self]
      omega

theorem effEdges_declared {g : GraphData} {e : Edge} (he : e ∈ effEdges g) :
    e.source ∈ nodeIds g ∧ e.target ∈ nodeIds g := by
  have h := List.mem_filter.mp he
  rcases (Bool.and_eq_true _ _).mp h.2 with ⟨h1, h2⟩
  exact ⟨declared_iff.mp h1, declared_iff.mp h2⟩

theorem kstate_init (g : GraphData) (hnd : (nodeIds g).Nodup) :
    KState g (initQueue g) [] (inDeg g) := by
  have hdone : ∀ v, doneCount g [] v = 0 := by
    intro v
    rw [doneCount, List.countP_eq_zero]
    intro e _
    simp
  refine ⟨?_, by simp, hnd.filter _, by simp, by simp, ?_, ?_, by simp⟩
  · intro v
    simp [hdone v]
  · intro x hx
    exact List.mem_of_mem_filter hx
  · intro v hv
    simp only [List.not_mem_nil, false_or]
    constructor
    · intro hq e he ht
      exfalso
      have h0 : inDeg g v = 0 := by
        have := (List.mem_filter.mp hq).2
        simpa using this
      have hpos : 0 < inDegN g v := by
        rw [inDegN, List.countP_pos_iff]
        exact ⟨e, he, by simp [ht]⟩
      rw [inDeg_eq] at h0
      omega
    · intro hall
      have h0 : inDegN g v = 0 := by
        rw [inDegN, List.countP_eq_zero]
        intro e he
        simp only [beq_iff_eq]
        intro ht
        simpa using hall e he ht
      refine List.mem_filter.mpr ⟨hv, by simp [inDeg_eq, h0]⟩

theorem kahnLoop_master (g : GraphData) :
    ∀ (fuel : Nat) (queue result : List String) (deg : String → Int),
      KState g queue result deg →
      (nodeIds g).length - result.length < fuel →
      (kahnLoop g fuel queue result deg).2 = [] ∧
        ∃ deg', KState g [] (kahnLoop g fuel queue result deg).1 deg' := by
  intro fuel
  induction fuel with
  | zero =>
    intro queue result deg _ hf
    omega
  | succ f ih =>
    intro queue result deg H hf
    cases queue with
    | nil =>
      simp only [kahnLoop]
      exact ⟨by trivial, deg, H⟩
    | cons u rest =>
      have H' := kstate_step H
      have hlen : (result ++ [u]).length ≤ (nodeIds g).length :=
        nodup_length_le H'.nd_res H'.sub_res
      simp only [kahnLoop]
      apply ih _ _ _ H'
      simp only [List.length_append, List.length_singleton] at hlen ⊢
      omega

theorem kahn_final (g : GraphData) (hnd : (nodeIds g).Nodup) :
    ∃ deg', KState g [] (kahnResult g) deg' := by
  have h := kahnLoop_master g (g.nodes.length + 1) (initQueue g) [] (inDeg g)
    (kstate_init g hnd) (by simp [nodeIds])
  exact h.2

theorem transGen_measure {r : String → String → Prop} {m : String → ℕ}
    (hm : ∀ a b, r a b → m a < m b) :
    ∀ a b, Relation.TransGen r a b → m a < m b := by
  intro a b h
  induction h with
  | single h' => exact hm _ _ h'
  | tail _ hstep ih => exact lt_trans ih (hm _ _ hstep)

/-- A graph admitting a strictly edge-increasing measure has no directed
cycle. -/
theorem acyclic_of_measure {g : GraphData} (m : String → ℕ)
    (hm : ∀ u v, edgeRel g u v → m u < m v) : Acyclic g :=
  fun u hu => lt_irrefl _ (transGen_measure hm u u hu)

/-- In a finite set in which every element has a predecessor inside the set,
the relation has a cycle. -/
theorem chain_cycle (S : Finset String) (r : String → String → Prop)
    (hne : S.Nonempty) (h : ∀ v ∈ S, ∃ p ∈ S, r p v) :
    ∃ u, Relation.TransGen r u u := by
  classical
  obtain ⟨v₀, hv₀⟩ := hne
  choose f hf1 hf2 using h
  set F : String → String := fun v => if hv : v ∈ S then f v hv else v₀ with hF
  have hFS : ∀ v, v ∈ S → F v ∈ S := by
    intro v hv
    simp only [hF, dif_pos hv]
    exact hf1 v hv
  have hFr : ∀ v, v ∈ S → r (F v) v := by
    intro v hv
    simp only [hF, dif_pos hv]
    exact hf2 v hv
  have hseqS : ∀ n : ℕ, F^[n] v₀ ∈ S := by
    intro n
    induction n with
    | zero => exact hv₀
    | succ k ihk =>
      rw [Function.iterate_succ_apply']
      exact hFS _ ihk
  have hstep : ∀ n : ℕ, r (F^[n+1] v₀) (F^[n] v₀) := by
    intro n
    rw [Function.iterate_succ_apply']
    exact hFr _ (hseqS n)
  have htrans : ∀ a d : ℕ, Relation.TransGen r (F^[a + d + 1] v₀) (F^[a] v₀) := by
    intro a d
    induction d with
    | zero => exact Relation.TransGen.single (hstep a)
    | succ k ihk =>
      have hs : r (F^[a + (k+1) + 1] v₀) (F^[a + k + 1] v₀) := hstep (a + k + 1)
      exact Relation.TransGen.head hs ihk
  obtain ⟨m, n, hmn, heq⟩ :=
    Finite.exists_ne_map_eq_of_infinite
      (fun n : ℕ => (⟨F^[n] v₀, hseqS n⟩ : {x // x ∈ S}))
  have heq' : F^[m] v₀ = F^[n] v₀ := congrArg Subtype.val heq
  rcases Nat.lt_or_ge m n with hlt | hge
  · have := htrans m (n - m - 1)
    rw [show m + (n - m - 1) + 1 = n from by omega, ← heq'] at this
    exact ⟨_, this⟩
  · have hlt : n < m := lt_of_le_of_ne hge (Ne.symm hmn)
    have := htrans n (m - n - 1)
    rw [show n + (m - n - 1) + 1 = m from by omega, heq'] at this
    exact ⟨_, this⟩

theorem kahn_complete (g : GraphData) (hnd : (nodeIds g).Nodup) (hac : Acyclic g) :
    ∀ v ∈ nodeIds g, v ∈ kahnResult g := by
  obtain ⟨deg', Hf⟩ := kahn_final g hnd
  by_contra hc
  push_neg at hc
  obtain ⟨v₀, hv₀n, hv₀r⟩ := hc
  classical
  set S : Finset String := (nodeIds g).toFinset.filter (fun v => v ∉ kahnResult g)
    with hS
  have hmemS : ∀ v, v ∈ S ↔ v ∈ nodeIds g ∧ v ∉ kahnResult g := by
    intro v
    simp [hS]
  have hne : S.Nonempty := ⟨v₀, (hmemS v₀).mpr ⟨hv₀n, hv₀r⟩⟩
  have hpred : ∀ v ∈ S, ∃ p ∈ S, edgeRel g p v := by
    intro v hv
    rcases (hmemS v).mp hv with ⟨hvn, hvr⟩
    have hiff := Hf.mem_iff v hvn
    simp only [List.not_mem_nil, or_false] at hiff
    have hnot : ¬ ∀ e ∈ effEdges g, e.target = v → e.source ∈ kahnResult g :=
      fun hall => hvr (hiff.mpr hall)
    push_neg at hnot
    obtain ⟨e, he, ht, hs⟩ := hnot
    exact ⟨e.source, (hmemS _).mpr ⟨(effEdges_declared he).1, hs⟩, ⟨e, he, rfl, ht⟩⟩
  obtain ⟨u, hu⟩ := chain_cycle S (edgeRel g) hne hpred
  exact hac u hu

theorem kahnResult_nodup (g : GraphData) (hnd : (nodeIds g).Nodup) :
    (kahnResult g).Nodup :=
  (kahn_final g hnd).choose_spec.nd_res

theorem kahnResult_sub (g : GraphData) (hnd : (nodeIds g).Nodup) :
    ∀ x ∈ kahnResult g, x ∈ nodeIds g :=
  (kahn_final g hnd).choose_spec.sub_res

theorem kahnResult_length_le (g : GraphData) (hnd : (nodeIds g).Nodup) :
    (kahnResult g).length ≤ g.nodes.length := by
  have h := nodup_length_le (kahnResult_nodup g hnd) (kahnResult_sub g hnd)
  simpa [nodeIds] using h

theorem kahnResult_length (g : GraphData) (hnd : (nodeIds g).Nodup)
    (hac : Acyclic g) : (kahnResult g).length = g.nodes.length := by
  have h1 := kahnResult_length_le g hnd
  have h2 : (nodeIds g).length ≤ (kahnResult g).length :=
    nodup_length_le hnd (fun x hx => kahn_complete g hnd hac x hx)
  simp only [nodeIds, List.length_map] at h2
  omega

theorem kahnResult_sorted (g : GraphData) (hnd : (nodeIds g).Nodup)
    (hac : Acyclic g) :
    ∀ e ∈ effEdges g,
      List.indexOf e.source (kahnResult g) < List.indexOf e.target (kahnResult g) := by
  obtain ⟨deg', Hf⟩ := kahn_final g hnd
  intro e he
  have ht : e.target ∈ kahnResult g :=
    kahn_complete g hnd hac _ (effEdges_declared he).2
  exact (Hf.sorted e he ht).2

/-- Success of `topoSort` on an acyclic graph with distinct node ids. -/
theorem topoSort_ok (g : GraphData) (hnd : (nodeIds g).Nodup) (hac : Acyclic g) :
    topoSort g = .ok (kahnResult g) := by
  rw [topoSort, if_pos (kahnResult_length g hnd hac)]

/-- If the declared part of the graph has a directed cycle, the loop cannot
order every node, so `topoSort` throws. -/
theorem topoSort_cycle_error (g : GraphData) (hnd : (nodeIds g).Nodup)
    (hcy : ∃ u, Relation.TransGen (edgeRel g) u u) :
    topoSort g = .error "Graph has a cycle" := by
  rw [topoSort]
  split
  case isTrue hlen =>
    exfalso
    obtain ⟨deg', Hf⟩ := kahn_final g hnd
    obtain ⟨u, hu⟩ := hcy
    have hall : ∀ v ∈ nodeIds g, v ∈ kahnResult g := by
      intro v hv
      classical
      have hsub : (kahnResult g).toFinset ⊆ (nodeIds g).toFinset := by
        intro x hx
        simp only [List.mem_toFinset] at hx ⊢
        exact kahnResult_sub g hnd x hx
      have hcard : (nodeIds g).toFinset.card ≤ (kahnResult g).toFinset.card := by
        rw [List.toFinset_card_of_nodup hnd, List.toFinset_card_of_nodup (kahnResult_nodup g hnd)]
        simp only [nodeIds, List.length_map]
        omega
      have := Finset.eq_of_subset_of_card_le hsub hcard
      rw [← List.mem_toFinset, ← this, List.mem_toFinset] at hv
      exact hv
    have hm : ∀ a b, edgeRel g a b →
        List.indexOf a (kahnResult g) < List.indexOf b (kahnResult g) := by
      rintro a b ⟨e, he, hs, ht⟩
      have htm : e.target ∈ kahnResult g := hall _ (effEdges_declared he).2
      have := (Hf.sorted e he htm).2
      rw [hs, ht] at this
      exact this
    exact lt_irrefl _ (transGen_measure hm u u hu)
  case isFalse => rfl

/-- Adjacency used by `hasCycle` (src/utils/layoutUtils.ts lines 190-197):
built per declared source id, one entry per edge in edge order; dangling
targets are included, and `adjList.get(x) || []` yields `[]` for an
undeclared id. -/
def hcAdj (g : GraphData) (u : String) : List String :=
  if declared g u then (g.edges.filter (fun e => e.source == u)).map (fun e => e.target)
  else []

/-- Fuel for the depth-first traversals: the recursion depth is bounded by
the number of distinct ids in play (each recursive call marks a previously
unvisited id visited), so this bound is never reached. -/
def dfsFuel (g : GraphData) : Nat := g.nodes.length + g.edges.length + 1

/-- The `for (const neighbor of neighbors)` loop inside `hasCycle`'s `dfs`,
parameterised by the recursive call for unvisited neighbours: a visited
neighbour on the stack is a back edge (return `true` at once); an unvisited
neighbour is explored recursively, propagating an early `true`. -/
def hcScan (dfs : String → List String → List String → Bool × List String) :
    List String → List String → List String → Bool × List String
  | [], visited, _ => (false, visited)
  | nb :: rest, visited, stack =>
    if nb ∈ visited then
      if nb ∈ stack then (true, visited) else hcScan dfs rest visited stack
    else
      let r := dfs nb visited stack
      if r.1 then (true, r.2) else hcScan dfs rest r.2 stack

/-- The recursive `dfs(nodeId)` of `hasCycle`: mark visited, push on the
recursion stack, scan the neighbours.  Returns the cycle flag and the
updated visited set (the stack is caller-local). -/
def hcDfs (g : GraphData) : Nat → String → List String → List String → Bool × List String
  | 0, _, visited, _ => (false, visited)
  | f + 1, u, visited, stack =>
    hcScan (hcDfs g f) (hcAdj g u) (visited ++ [u]) (stack ++ [u])

/-- The `for (const node of nodes)` loop of `hasCycle`. -/
def hcOuter (g : GraphData) : List Node → List String → Bool
  | [], _ => false
  | n :: ns, visited =>
    if n.id ∈ visited then hcOuter g ns visited
    else
      let r := hcDfs g (dfsFuel g) n.id visited []
      if r.1 then true else hcOuter g ns r.2

/-- src/utils/layoutUtils.ts lines 186-223, `hasCycle`. -/
def hasCycle (g : GraphData) : Bool := hcOuter g g.nodes []

/-- JS `Set.add`: append unless already present (first-insertion order). -/
def insertUniq (l : List String) (x : String) : List String :=
  if x ∈ l then l else l ++ [x]

/-- Adjacency used by `breakCycles` (src/utils/layoutUtils.ts lines
282-287): a `Set` per declared source id, so duplicate (source, target)
pairs collapse to a single entry. -/
def bcAdj (g : GraphData) (u : String) : List String :=
  if declared g u then
    ((g.edges.filter (fun e => e.source == u)).map (fun e => e.target)).foldl insertUniq []
  else []

/-- Neighbour loop of `breakCycles`'s `dfs`, parameterised by the recursive
call: on a back edge, look up the first edge record from `u` to `nb`
(`validEdges.find`) and mark its id for removal (`if (edgeId)` skips a
falsy, i.e. empty, id); the simultaneous in-place deletion from the working
adjacency is never observed again, since `dfs` runs at most once per node. -/
def bcScan (g : GraphData)
    (dfs : String → List String → List String → List String → List String × List String)
    (u : String) :
    List String → List String → List String → List String → List String × List String
  | [], visited, _, toRemove => (visited, toRemove)
  | nb :: rest, visited, stack, toRemove =>
    if nb ∈ visited then
      if nb ∈ stack then
        bcScan g dfs u rest visited stack
          (match g.edges.find? (fun e => e.source == u && e.target == nb) with
           | some e => if e.id = "" then toRemove else toRemove ++ [e.id]
           | none => toRemove)
      else bcScan g dfs u rest visited stack toRemove
    else
      let r := dfs nb visited stack toRemove
      bcScan g dfs u rest r.1 stack r.2

/-- The recursive `dfs(nodeId)` of `breakCycles`.  State: visited set and
the ids of edges marked for removal. -/
def bcDfs (g : GraphData) :
    Nat → String → List String → List String → List String → List String × List String
  | 0, _, visited, _, toRemove => (visited, toRemove)
  | f + 1, u, visited, stack, toRemove =>
    bcScan g (bcDfs g f) u (bcAdj g u) (visited ++ [u]) (stack ++ [u]) toRemove

/-- The `for (const node of nodes)` loop of `breakCycles`, accumulating the
edge ids to drop. -/
def bcOuter (g : GraphData) : List Node → List String → List String → List String
  | [], _, toRemove => toRemove
  | n :: ns, visited, toRemove =>
    if n.id ∈ visited then bcOuter g ns visited toRemove
    else
      let r := bcDfs g (dfsFuel g) n.id visited [] toRemove
      bcOuter g ns r.1 r.2

/-- src/utils/layoutUtils.ts lines 274-319, `breakCycles`: all nodes kept,
edges whose id was marked dropped. -/
def breakCycles (g : GraphData) : GraphData :=
  { nodes := g.nodes
    edges := g.edges.filter (fun e => !((bcOuter g g.nodes [] []).contains e.id)) }

/-- src/utils/layoutUtils.ts lines 135-141, `ensureAcyclicGraph`: return the
graph unchanged when no cycle is detected, otherwise run `breakCycles`
once. -/
def ensureAcyclicGraph (g : GraphData) : GraphData :=
  if hasCycle g then breakCycles g else g

/-- `edges.filter(e => e.target === nodeId).map(e => e.source)`
(GraphView.tsx line 119): every incoming edge's source, no declaredness
check. -/
def parentsOf (edges : List Edge) (v : String) : List String :=
  (edges.filter (fun e => e.target == v)).map (fun e => e.source)

/-- One step of the `maxParentLayer` accumulation (GraphView.tsx lines
121-126): take a parent's layer when assigned and larger. -/
def layerStep (L : String → Option Nat) (a : Int) (p : String) : Int :=
  match L p with
  | some k => if (k : Int) > a then (k : Int) else a
  | none => a

/-- `maxParentLayer` for `v`: fold over the parents starting from `-1`. -/
def maxParentLayer (edges : List Edge) (L : String → Option Nat) (v : String) : Int :=
  (parentsOf edges v).foldl (layerStep L) (-1)

/-- The `sortedNodeIds.forEach` loop of GraphView's layer assignment
(lines 118-128): process ids in order, setting
`layers.set(nodeId, maxParentLayer + 1)`. -/
def assignLayersAux (edges : List Edge) :
    List String → (String → Option Nat) → (String → Option Nat)
  | [], L => L
  | v :: rest, L =>
    assignLayersAux edges rest
      (fun x => if x = v then some (maxParentLayer edges L v + 1).toNat else L x)

/-- GraphView.tsx lines 117-128: the layer map produced from a node-id
order. -/
def assignLayers (edges : List Edge) (order : List String) : String → Option Nat :=
  assignLayersAux edges order (fun _ => none)

/-- Specification of one assigned layer value: zero without incoming edges,
otherwise one more than the maximum assigned layer among incoming-edge
sources. -/
def GoodAt (edges : List Edge) (L : String → Option Nat) (v : String) : Prop :=
  ∃ lv, L v = some lv ∧
    ((∀ e ∈ edges, e.target ≠ v) → lv = 0) ∧
    (∀ e ∈ edges, e.target = v → ∃ ls, L e.source = some ls ∧ ls < lv) ∧
    ((∃ e ∈ edges, e.target = v) → ∃ e ∈ edges, e.target = v ∧ L e.source = some (lv - 1))

theorem maxFold_spec (L : String → Option Nat) :
    ∀ (ps : List String) (acc : Int),
      acc ≤ ps.foldl (layerStep L) acc ∧
      (∀ p ∈ ps, ∀ k, L p = some k → (k : Int) ≤ ps.foldl (layerStep L) acc) ∧
      (ps.foldl (layerStep L) acc = acc ∨
        ∃ p ∈ ps, ∃ k, L p = some k ∧ (k : Int) = ps.foldl (layerStep L) acc) := by
  intro ps
  induction ps with
  | nil => intro acc; exact ⟨le_refl _, by simp, Or.inl rfl⟩
  | cons p ps ih =>
    intro acc
    have hstep1 : acc ≤ layerStep L acc p := by
      unfold layerStep
      cases hL : L p with
      | none => exact le_refl _
      | some k => dsimp only; split <;> omega
    have hstep2 : ∀ k, L p = some k → (k : Int) ≤ layerStep L acc p := by
      intro k hk
      unfold layerStep
      rw [hk]
      dsimp only
      split <;> omega
    have hstep3 : layerStep L acc p = acc ∨
        ∃ k, L p = some k ∧ (k : Int) = layerStep L acc p := by
      unfold layerStep
      cases hL : L p with
      | none => exact Or.inl rfl
      | some k =>
        dsimp only
        split
        · exact Or.inr ⟨k, rfl, rfl⟩
        · exact Or.inl rfl
    obtain ⟨ih1, ih2, ih3⟩ := ih (layerStep L acc p)
    refine ⟨le_trans hstep1 ih1, ?_, ?_⟩
    · intro q hq k hk
      rcases List.mem_cons.mp hq with hq | hq
      · subst hq
        exact le_trans (hstep2 k hk) ih1
      · exact ih2 q hq k hk
    · rcases ih3 with h | ⟨q, hq, k, hk, hke⟩
      · rw [List.foldl_cons, h]
        rcases hstep3 with h' | ⟨k, hk, hke⟩
        · exact Or.inl h'
        · exact Or.inr ⟨p, List.mem_cons_self _ _, k, hk, hke⟩
      · exact Or.inr ⟨q, List.mem_cons_of_mem _ hq, k, hk, hke⟩

theorem assignLayersAux_stable (edges : List Edge) :
    ∀ (todo : List String) (L : String → Option Nat) (x : String),
      x ∉ todo → assignLayersAux edges todo L x = L x := by
  intro todo
  induction todo with
  | nil => intro L x _; rfl
  | cons v rest ih =>
    intro L x hx
    have hxv : x ≠ v := fun h => hx (h ▸ List.mem_cons_self _ _)
    have hxr : x ∉ rest := fun h => hx (List.mem_cons_of_mem _ h)
    rw [assignLayersAux, ih _ x hxr]
    simp [hxv]

theorem mem_prefix_of_indexOf_lt {done todo : List String} {u : String}
    (_hu : u ∈ done ++ todo)
    (hlt : List.indexOf u (done ++ todo) < done.length) : u ∈ done := by
  by_contra hc
  rw [List.indexOf_append_of_not_mem hc] at hlt
  omega

theorem assignLayersAux_correct (edges : List Edge) (order : List String)
    (hnd : order.Nodup) (hsrc : ∀ e ∈ edges, e.source ∈ order)
    (htopo : ∀ e ∈ edges, List.indexOf e.source order < List.indexOf e.target order) :
    ∀ (todo done : List String) (L : String → Option Nat),
      order = done ++ todo →
      (∀ x, ((L x).isSome = true) ↔ x ∈ done) →
      (∀ v ∈ done, GoodAt edges L v) →
      (∀ x, (((assignLayersAux edges todo L) x).isSome = true) ↔ x ∈ order) ∧
      (∀ v ∈ order, GoodAt edges (assignLayersAux edges todo L) v) := by
  intro todo
  induction todo with
  | nil =>
    intro done L horder hdom hgood
    rw [assignLayersAux]
    subst horder
    simp only [List.append_nil]
    exact ⟨hdom, hgood⟩
  | cons v rest ih =>
    intro done L horder hdom hgood
    have hndo : order.Nodup := hnd
    have hvdone : v ∉ done := by
      rw [horder] at hndo
      have := (List.nodup_append.mp hndo).2.2
      intro hv
      exact this hv (List.mem_cons_self _ _)
    -- position of v in the order is exactly `done.length`
    have hvidx : List.indexOf v order = done.length := by
      rw [horder, List.indexOf_append_of_not_mem hvdone]
      simp
    -- sources of edges into v are already assigned
    have hsrc_done : ∀ e ∈ edges, e.target = v → e.source ∈ done := by
      intro e he ht
      have h1 : List.indexOf e.source order < done.length := by
        have := htopo e he
        rw [ht, hvidx] at this
        exact this
      exact mem_prefix_of_indexOf_lt (by rw [← horder]; exact hsrc e he)
        (by rw [← horder]; exact h1)
    set m := maxParentLayer edges L v with hm
    set L' := fun x => if x = v then some (m + 1).toNat else L x with hL'
    have hL'v : L' v = some (m + 1).toNat := by simp [hL']
    have hL'other : ∀ x, x ≠ v → L' x = L x := by
      intro x hx
      simp [hL', hx]
    have hdom' : ∀ x, ((L' x).isSome = true) ↔ x ∈ done ++ [v] := by
      intro x
      by_cases hx : x = v
      · subst hx
        simp [hL'v]
      · rw [hL'other x hx, hdom x]
        simp [hx]
    -- the freshly assigned value satisfies the layer specification
    have hgoodv : GoodAt edges L' v := by
      obtain ⟨hge, hbound, hattain⟩ := maxFold_spec L (parentsOf edges v) (-1)
      have hfold : List.foldl (layerStep L) (-1) (parentsOf edges v) = m := by
        rw [hm, maxParentLayer]
      rw [hfold] at hge hbound hattain
      by_cases hpar : ∃ e ∈ edges, e.target = v
      · obtain ⟨e₀, he₀, ht₀⟩ := hpar
        have hs₀ : e₀.source ∈ done := hsrc_done e₀ he₀ ht₀
        obtain ⟨k₀, hk₀⟩ := Option.isSome_iff_exists.mp ((hdom e₀.source).mpr hs₀)
        have hk₀le : (k₀ : Int) ≤ m := by
          have hp : e₀.source ∈ parentsOf edges v := by
            rw [parentsOf, List.mem_map]
            exact ⟨e₀, List.mem_filter.mpr ⟨he₀, by simp [ht₀]⟩, rfl⟩
          exact hbound e₀.source hp k₀ hk₀
        have hm0 : 0 ≤ m := le_trans (by positivity) hk₀le
        refine ⟨(m + 1).toNat, hL'v, ?_, ?_, ?_⟩
        · intro hno
          exact absurd ht₀ (hno e₀ he₀)
        · intro e he ht
          have hs : e.source ∈ done := hsrc_done e he ht
          obtain ⟨k, hk⟩ := Option.isSome_iff_exists.mp ((hdom e.source).mpr hs)
          have hsv : e.source ≠ v := fun h => hvdone (h ▸ hs)
          refine ⟨k, by rw [hL'other _ hsv]; exact hk, ?_⟩
          have hkle : (k : Int) ≤ m := by
            have hp : e.source ∈ parentsOf edges v := by
              rw [parentsOf, List.mem_map]
              exact ⟨e, List.mem_filter.mpr ⟨he, by simp [ht]⟩, rfl⟩
            exact hbound e.source hp k hk
          omega
        · intro _
          rcases hattain with h | ⟨p, hp, k, hk, hke⟩
          · omega
          · rw [parentsOf, List.mem_map] at hp
            obtain ⟨e, he', hes⟩ := hp
            have he'' := List.mem_filter.mp he'
            have htv : e.target = v := by simpa using he''.2
            have hsv : e.source ≠ v := by
              intro h
              exact hvdone (h ▸ hes ▸ hsrc_done e he''.1 htv)
            refine ⟨e, he''.1, htv, ?_⟩
            rw [hL'other _ hsv, hes, hk]
            congr 1
            omega
      · -- no incoming edges: the fold stays at -1 and the layer is 0
        push_neg at hpar
        have hparnil : parentsOf edges v = [] := by
          rw [parentsOf, List.map_eq_nil_iff, List.filter_eq_nil_iff]
          intro e he
          simpa using hpar e he
        have hmval : m = -1 := by
          rw [hm, maxParentLayer, hparnil]
          rfl
        refine ⟨(m + 1).toNat, hL'v, fun _ => by omega, ?_, ?_⟩
        · intro e he ht
          exact absurd ht (hpar e he)
        · rintro ⟨e, he, ht⟩
          exact absurd ht (hpar e he)
    -- previously assigned values are untouched
    have hgood' : ∀ w ∈ done ++ [v], GoodAt edges L' w := by
      intro w hw
      rcases List.mem_append.mp hw with hw | hw
      · obtain ⟨lw, hlw, hz, hb, ha⟩ := hgood w hw
        have hwv : w ≠ v := fun h => hvdone (h ▸ hw)
        refine ⟨lw, by rw [hL'other _ hwv]; exact hlw, hz, ?_, ?_⟩
        · intro e he ht
          obtain ⟨ls, hls, hlt⟩ := hb e he ht
          have hsw : e.source ∈ done := by
            have h1 : List.indexOf e.source order < List.indexOf w order := by
              rw [← ht] at *
              exact htopo e he
            have h2 : List.indexOf w order < done.length := by
              rw [horder, List.indexOf_append_of_mem hw]
              exact lt_of_lt_of_le (List.indexOf_lt_length.mpr hw) (le_refl _)
            exact mem_prefix_of_indexOf_lt (by rw [← horder]; exact hsrc e he)
              (by rw [← horder]; omega)
          have hsv : e.source ≠ v := fun h => hvdone (h ▸ hsw)
          exact ⟨ls, by rw [hL'other _ hsv]; exact hls, hlt⟩
        · intro hex
          obtain ⟨e, he, ht, hval⟩ := ha hex
          have hsw : e.source ∈ done := by
            have h1 : List.indexOf e.source order < List.indexOf w order := by
              rw [← ht] at *
              exact htopo e he
            have h2 : List.indexOf w order < done.length := by
              rw [horder, List.indexOf_append_of_mem hw]
              exact List.indexOf_lt_length.mpr hw
            exact mem_prefix_of_indexOf_lt (by rw [← horder]; exact hsrc e he)
              (by rw [← horder]; omega)
          have hsv : e.source ≠ v := fun h => hvdone (h ▸ hsw)
          exact ⟨e, he, ht, by rw [hL'other _ hsv]; exact hval⟩
      · have hwv : w = v := by simpa using hw
        subst hwv
        exact hgoodv
    have horder' : order = (done ++ [v]) ++ rest := by
      rw [horder]
      simp
    have := ih (done ++ [v]) L' horder' hdom' hgood'
    rw [assignLayersAux]
    exact this

/-- `n.y || 0`: an unset `y` reads as `0` (an explicit `0` also reads
as `0`). -/
def yOf (n : Node) : ℚ := n.y.getD 0

/-- src/utils/layoutUtils.ts lines 11-20, `calculateBarycenter`: the mean of
the neighbours' `y` values, `0` for no neighbours.  (The `node` and
`direction` parameters of the source are unused by its body and are
dropped.) -/
def calculateBarycenter (neighbors : List Node) : ℚ :=
  if neighbors.length = 0 then 0
  else (neighbors.map yOf).sum / neighbors.length

/-- `outgoing.get(u) || []` of `optimizeLayerOrdering` (lines 33-41): the
targets of all edges out of `u`, in edge order.  (`incoming.get(v) || []`
is `parentsOf`, defined above, which is built the same way.) -/
def childrenOf (edges : List Edge) (u : String) : List String :=
  (edges.filter (fun e => e.source == u)).map (fun e => e.target)

/-- `(incoming.get(a.id) || []).map(id => prevLayer.find(n => n.id === id))
.filter(n => !!n)` (lines 52-57): resolve each parent id to its first
occurrence in the previous layer, dropping unresolved ones. -/
def parentsIn (edges : List Edge) (prevLayer : List Node) (a : Node) : List Node :=
  (parentsOf edges a.id).filterMap (fun pid => prevLayer.find? (fun n => n.id == pid))

/-- Same for the children resolved in the next layer (lines 72-77). -/
def childrenIn (edges : List Edge) (nextLayer : List Node) (a : Node) : List Node :=
  (childrenOf edges a.id).filterMap (fun cid => nextLayer.find? (fun n => n.id == cid))

/-- Forward-sweep sort key of a node: barycenter of its parents resolved in
the previous layer. -/
def baryIn (edges : List Edge) (prevLayer : List Node) (a : Node) : ℚ :=
  calculateBarycenter (parentsIn edges prevLayer a)

/-- Backward-sweep sort key: barycenter of the children resolved in the
next layer. -/
def baryOut (edges : List Edge) (nextLayer : List Node) (a : Node) : ℚ :=
  calculateBarycenter (childrenIn edges nextLayer a)

/-- `layer.sort((a, b) => aBarycenter - bBarycenter)` of the forward sweep:
a stable ascending sort by the barycenter key (JS `Array.sort` is
stable). -/
def sortByBaryIn (edges : List Edge) (prevLayer layer : List Node) : List Node :=
  layer.mergeSort (fun a b => decide (baryIn edges prevLayer a ≤ baryIn edges prevLayer b))

/-- The backward-sweep sort. -/
def sortByBaryOut (edges : List Edge) (nextLayer layer : List Node) : List Node :=
  layer.mergeSort (fun a b => decide (baryOut edges nextLayer a ≤ baryOut edges nextLayer b))

/-- Forward sweep (lines 46-64): layers `1..n-1` in order, each sorted
against the already re-sorted previous layer. -/
def forwardSweepAux (edges : List Edge) : List Node → List (List Node) → List (List Node)
  | _, [] => []
  | prev, l :: ls =>
    let l' := sortByBaryIn edges prev l
    l' :: forwardSweepAux edges l' ls

def forwardSweep (edges : List Edge) : List (List Node) → List (List Node)
  | [] => []
  | l :: ls => l :: forwardSweepAux edges l ls

/-- Backward sweep (lines 66-84): layers `n-2..0` downwards, each sorted
against the already re-sorted next layer; realised on the reversed list. -/
def backwardSweepAux (edges : List Edge) : List Node → List (List Node) → List (List Node)
  | _, [] => []
  | next, l :: ls =>
    let l' := sortByBaryOut edges next l
    l' :: backwardSweepAux edges l' ls

def backwardSweep (edges : List Edge) (layers : List (List Node)) : List (List Node) :=
  match layers.reverse with
  | [] => []
  | l :: ls => (l :: backwardSweepAux edges l ls).reverse

/-- The `for (let iter = 0; iter < 3; iter++)` loop: a forward then a
backward sweep, three times. -/
def sweepRounds (edges : List Edge) : Nat → List (List Node) → List (List Node)
  | 0, ls => ls
  | k + 1, ls => sweepRounds edges k (backwardSweep edges (forwardSweep edges ls))

/-- src/utils/layoutUtils.ts lines 26-88, `optimizeLayerOrdering`. -/
def optimizeLayerOrdering (nodesByLayer : List (List Node)) (edges : List Edge) :
    List (List Node) :=
  sweepRounds edges 3 nodesByLayer

theorem forall₂_perm_append {l₁ l₂ u₁ u₂ : List (List Node)}
    (h : List.Forall₂ List.Perm l₁ l₂) (h' : List.Forall₂ List.Perm u₁ u₂) :
    List.Forall₂ List.Perm (l₁ ++ u₁) (l₂ ++ u₂) := by
  induction h with
  | nil => simpa using h'
  | cons hh _ ih => exact List.Forall₂.cons hh ih

theorem forall₂_perm_reverse {l₁ l₂ : List (List Node)}
    (h : List.Forall₂ List.Perm l₁ l₂) :
    List.Forall₂ List.Perm l₁.reverse l₂.reverse := by
  induction h with
  | nil => simp
  | cons h _ ih =>
    simp only [List.reverse_cons]
    exact forall₂_perm_append ih (List.Forall₂.cons h List.Forall₂.nil)

theorem forall₂_perm_trans {l₁ l₂ l₃ : List (List Node)}
    (h₁ : List.Forall₂ List.Perm l₁ l₂) (h₂ : List.Forall₂ List.Perm l₂ l₃) :
    List.Forall₂ List.Perm l₁ l₃ := by
  induction h₁ generalizing l₃ with
  | nil =>
    cases h₂
    exact List.Forall₂.nil
  | cons h _ ih =>
    cases h₂ with
    | cons h' hrest => exact List.Forall₂.cons (h.trans h') (ih hrest)

theorem forall₂_perm_refl (l : List (List Node)) : List.Forall₂ List.Perm l l :=
  List.forall₂_same.mpr (fun x _ => List.Perm.refl x)

theorem forwardSweepAux_perm (edges : List Edge) :
    ∀ (prev : List Node) (ls : List (List Node)),
      List.Forall₂ List.Perm (forwardSweepAux edges prev ls) ls := by
  intro prev ls
  induction ls generalizing prev with
  | nil => exact List.Forall₂.nil
  | cons l ls ih =>
    exact List.Forall₂.cons (List.mergeSort_perm l _) (ih _)

theorem forwardSweep_perm (edges : List Edge) (ls : List (List Node)) :
    List.Forall₂ List.Perm (forwardSweep edges ls) ls := by
  cases ls with
  | nil => exact List.Forall₂.nil
  | cons l ls => exact List.Forall₂.cons (List.Perm.refl l) (forwardSweepAux_perm edges l ls)

theorem backwardSweepAux_perm (edges : List Edge) :
    ∀ (next : List Node) (ls : List (List Node)),
      List.Forall₂ List.Perm (backwardSweepAux edges next ls) ls := by
  intro next ls
  induction ls generalizing next with
  | nil => exact List.Forall₂.nil
  | cons l ls ih =>
    exact List.Forall₂.cons (List.mergeSort_perm l _) (ih _)

theorem backwardSweep_perm (edges : List Edge) (ls : List (List Node)) :
    List.Forall₂ List.Perm (backwardSweep edges ls) ls := by
  rw [backwardSweep]
  cases hrev : ls.reverse with
  | nil =>
    have : ls = [] := by simpa using congrArg List.reverse hrev
    subst this
    exact List.Forall₂.nil
  | cons l rest =>
    have h1 : List.Forall₂ List.Perm (l :: backwardSweepAux edges l rest) (l :: rest) :=
      List.Forall₂.cons (List.Perm.refl l) (backwardSweepAux_perm edges l rest)
    have h2 := forall₂_perm_reverse h1
    rw [← hrev, List.reverse_reverse] at h2
    exact h2

theorem sweepRounds_perm (edges : List Edge) :
    ∀ (k : Nat) (ls : List (List Node)),
      List.Forall₂ List.Perm (sweepRounds edges k ls) ls := by
  intro k
  induction k with
  | zero => intro ls; exact forall₂_perm_refl ls
  | succ k ih =>
    intro ls
    exact forall₂_perm_trans (ih _)
      (forall₂_perm_trans (backwardSweep_perm edges _) (forwardSweep_perm edges ls))

theorem sortByBaryIn_sorted (edges : List Edge) (prevLayer layer : List Node) :
    (sortByBaryIn edges prevLayer layer).Pairwise
      (fun a b => baryIn edges prevLayer a ≤ baryIn edges prevLayer b) := by
  have h := @List.sorted_mergeSort Node
    (fun a b => decide (baryIn edges prevLayer a ≤ baryIn edges prevLayer b))
    (fun a b c hab hbc => by
      simp only [decide_eq_true_eq] at *
      exact le_trans hab hbc)
    (fun a b => by
      simp only [Bool.or_eq_true, decide_eq_true_eq]
      exact le_total _ _)
    layer
  exact h.imp (fun hab => by simpa using hab)

/-- Modelled from the spec (§4.5 wording), for comparison with the code:
the re-sort key the spec describes is the mean POSITIONAL INDEX of the
node's predecessors in the immediately preceding layer (0 with no relevant
neighbours). -/
def specIdxBaryIn (edges : List Edge) (prevLayer : List Node) (a : Node) : ℚ :=
  let idxs := (parentsOf edges a.id).filterMap
    (fun pid => prevLayer.findIdx? (fun n => n.id == pid))
  if idxs.length = 0 then 0 else ((idxs.map (fun i => (i : ℚ))).sum) / idxs.length

/-- Modelled from the spec (§4.5 wording): mean positional index of the
successors in the immediately following layer. -/
def specIdxBaryOut (edges : List Edge) (nextLayer : List Node) (a : Node) : ℚ :=
  let idxs := (childrenOf edges a.id).filterMap
    (fun cid => nextLayer.findIdx? (fun n => n.id == cid))
  if idxs.length = 0 then 0 else ((idxs.map (fun i => (i : ℚ))).sum) / idxs.length

/-- The spec-described minimizer: same sweep structure, but each layer
re-sorted by the mean positional index of its neighbours in the adjacent
layer. -/
def specSortIn (edges : List Edge) (prevLayer layer : List Node) : List Node :=
  layer.mergeSort
    (fun a b => decide (specIdxBaryIn edges prevLayer a ≤ specIdxBaryIn edges prevLayer b))

def specSortOut (edges : List Edge) (nextLayer layer : List Node) : List Node :=
  layer.mergeSort
    (fun a b => decide (specIdxBaryOut edges nextLayer a ≤ specIdxBaryOut edges nextLayer b))

def specForwardSweepAux (edges : List Edge) : List Node → List (List Node) → List (List Node)
  | _, [] => []
  | prev, l :: ls =>
    let l' := specSortIn edges prev l
    l' :: specForwardSweepAux edges l' ls

def specForwardSweep (edges : List Edge) : List (List Node) → List (List Node)
  | [] => []
  | l :: ls => l :: specForwardSweepAux edges l ls

def specBackwardSweepAux (edges : List Edge) : List Node → List (List Node) → List (List Node)
  | _, [] => []
  | next, l :: ls =>
    let l' := specSortOut edges next l
    l' :: specBackwardSweepAux edges l' ls

def specBackwardSweep (edges : List Edge) (layers : List (List Node)) : List (List Node) :=
  match layers.reverse with
  | [] => []
  | l :: ls => (l :: specBackwardSweepAux edges l ls).reverse

def specSweepRounds (edges : List Edge) : Nat → List (List Node) → List (List Node)
  | 0, ls => ls
  | k + 1, ls => specSweepRounds edges k (specBackwardSweep edges (specForwardSweep edges ls))

/-- The minimizer as the spec describes it (three rounds of index-barycenter
sweeps). -/
def specOptimizeLayerOrdering (nodesByLayer : List (List Node)) (edges : List Edge) :
    List (List Node) :=
  specSweepRounds edges 3 nodesByLayer

/-- Loosely-typed edge record consumed by `normalize`
(src/services/geminiService.ts lines 307-313): exactly the fields the
coercion reads; an absent field is `none`. -/
structure RawEdge where
  id : Option String := none
  source : Option String := none
  from' : Option String := none
  src : Option String := none
  target : Option String := none
  to' : Option String := none
  dst : Option String := none
  label : Option String := none
  name : Option String := none
  data : Option String := none
deriving DecidableEq

/-- Loosely-typed node record (lines 292-303): object form. -/
structure RawNodeObj where
  id : Option String := none
  label : Option String := none
  title : Option String := none
  name : Option String := none
  description : Option String := none
  text : Option String := none
  type : Option String := none
  outputs : Option (List String) := none
deriving DecidableEq

/-- A raw node is either a bare string or an object record. -/
inductive RawNode where
  | str (s : String)
  | obj (o : RawNodeObj)
deriving DecidableEq

/-- Node coercion of `normalize` (lines 292-302). -/
def coerceNode (idx : Nat) : RawNode → Node
  | .str s =>
    { id := "node-" ++ toString (idx + 1), label := s, description := s
      type := "Idea", outputs := [] }
  | .obj o =>
    let i := o.id.getD ("node-" ++ toString (idx + 1))
    let lab := (o.label <|> o.title <|> o.name).getD i
    let desc := (o.description <|> o.text).getD lab
    { id := i, label := lab, description := desc, type := o.type.getD "Idea"
      outputs := o.outputs.getD [] }

/-- Edge coercion of `normalize` (lines 305-312): missing fields coerce to
the empty string. -/
def coerceEdge (idx : Nat) (r : RawEdge) : Edge :=
  { id := r.id.getD ("edge-" ++ toString (idx + 1))
    source := (r.source <|> r.from' <|> r.src).getD ""
    target := (r.target <|> r.to' <|> r.dst).getD ""
    label := (r.label <|> r.name <|> r.data).getD "" }

/-- src/services/geminiService.ts lines 283-315 (also src/unnamed/part_005
lines 163-194), `normalize`, array stage: coerce the node and edge arrays
and keep an edge iff `e.source && e.target`, i.e. both coerced endpoint
strings are nonempty.  (The surrounding root/array discovery, which returns
`null` for a malformed root, is upstream of this and not involved in the
claims.) -/
def normalize (rawNodes : List RawNode) (rawEdges : List RawEdge) : GraphData :=
  { nodes := rawNodes.enum.map (fun p => coerceNode p.1 p.2)
    edges := (rawEdges.enum.map (fun p => coerceEdge p.1 p.2)).filter
      (fun e => !(e.source == "") && !(e.target == "")) }

theorem sortByBaryOut_sorted (edges : List Edge) (nextLayer layer : List Node) :
    (sortByBaryOut edges nextLayer layer).Pairwise
      (fun a b => baryOut edges nextLayer a ≤ baryOut edges nextLayer b) := by
  have h := @List.sorted_mergeSort Node
    (fun a b => decide (baryOut edges nextLayer a ≤ baryOut edges nextLayer b))
    (fun a b c hab hbc => by
      simp only [decide_eq_true_eq] at *
      exact le_trans hab hbc)
    (fun a b => by
      simp only [Bool.or_eq_true, decide_eq_true_eq]
      exact le_total _ _)
    layer
  exact h.imp (fun hab => by simpa using hab)

/-- GraphView.tsx lines 56-67, `inputsByNode`: for a declared node id, the
labels of its incoming edges in edge order with first-occurrence dedup
(the `includes` check); `undefined` for an undeclared id. -/
def inputsByNode (g : GraphData) (v : String) : List String :=
  if declared g v then
    g.edges.foldl
      (fun acc e =>
        if e.target == v && !(acc.contains e.label) then acc ++ [e.label] else acc) []
  else []

/-- GraphView.tsx lines 89-99, the `nodeHeights` entry for one node:
`bodyHeight = max(inputCount, outputCount) * 32`, then
`max(bodyHeight, 80) + 28`. -/
def nodeHeight (g : GraphData) (n : Node) : Nat :=
  max (max (inputsByNode g n.id).length n.outputs.length * 32) 80 + 28

/-- The `nodeHeights` map lookup (the map holds one entry per node id). -/
def nodeHeights (g : GraphData) (v : String) : Option Nat :=
  (g.nodes.find? (fun n => n.id == v)).map (nodeHeight g)

/-- GraphView.tsx lines 69-87, the `nodeWidths` entry for one node, in px
(`Math.max(0, ...list)` is a fold of `max` over `0`). -/
def nodeWidth (g : GraphData) (n : Node) : ℚ :=
  let inputs := inputsByNode g n.id
  let labelWidth : ℚ := (n.label.length : ℚ) * 8 + 60
  let maxInputWidth : ℚ := (inputs.map (fun i => (i.length : ℚ) * 7 + 30)).foldl max 0
  let maxOutputWidth : ℚ := (n.outputs.map (fun o => (o.length : ℚ) * 7 + 30)).foldl max 0
  let contentWidth := max (maxInputWidth + maxOutputWidth) 120
  min 320 (max 160 (max labelWidth contentWidth))

/-- GraphView.tsx lines 404-441, `getPortPosition`, over the positioned
node list of `g` (`node.x!`/`node.y!` read as their default-0 values, set
by layout before routing runs). -/
def getPortPosition (g : GraphData) (nodeId portLabel : String) (isOutput : Bool) : ℚ × ℚ :=
  match g.nodes.find? (fun n => n.id == nodeId) with
  | none => (0, 0)
  | some node =>
    let h : ℚ := (nodeHeight g node : Nat)
    let w : ℚ := nodeWidth g node
    let portIndex : Option Nat :=
      if isOutput then node.outputs.findIdx? (fun o => o == portLabel)
      else (inputsByNode g node.id).findIdx? (fun i => i == portLabel)
    match portIndex with
    | none => (node.x.getD 0, node.y.getD 0)
    | some idx =>
      let x : ℚ :=
        if isOutput then node.x.getD 0 + w / 2 + 6 else node.x.getD 0 - w / 2 - 6
      (x, (node.y.getD 0 - h / 2) + 28 + 2 + (idx : ℚ) * 32 + 16)

/-- An edge together with its resolved endpoint node records. -/
structure Link where
  edge : Edge
  sourceNode : Node
  targetNode : Node
deriving DecidableEq

/-- GraphView.tsx lines 250-256, `linkData`: attach the endpoint records
from the node map, dropping edges whose endpoint lookup fails. -/
def linkData (g : GraphData) : List Link :=
  g.edges.filterMap (fun e =>
    match g.nodes.find? (fun n => n.id == e.source),
        g.nodes.find? (fun n => n.id == e.target) with
    | some s, some t => some ⟨e, s, t⟩
    | _, _ => none)

/-- Group key `${e.source}|${e.label}` (line 281). -/
def sourceKey (e : Edge) : String := e.source ++ "|" ++ e.label

/-- Group key `${e.target}|${e.label}` (line 300). -/
def targetKey (e : Edge) : String := e.target ++ "|" ++ e.label

/-- Comparator of the source-group sort (line 287): target y, then target
x, then edge id (modelled as the corresponding `le`; JS sort is stable). -/
def sibLeTarget (a b : Link) : Bool :=
  decide (yOf a.targetNode < yOf b.targetNode ∨
    (yOf a.targetNode = yOf b.targetNode ∧
      (a.targetNode.x.getD 0 < b.targetNode.x.getD 0 ∨
        (a.targetNode.x.getD 0 = b.targetNode.x.getD 0 ∧ a.edge.id ≤ b.edge.id))))

/-- Comparator of the target-group sort (line 306): source y, then source
x, then edge id. -/
def sibLeSource (a b : Link) : Bool :=
  decide (yOf a.sourceNode < yOf b.sourceNode ∨
    (yOf a.sourceNode = yOf b.sourceNode ∧
      (a.sourceNode.x.getD 0 < b.sourceNode.x.getD 0 ∨
        (a.sourceNode.x.getD 0 = b.sourceNode.x.getD 0 ∧ a.edge.id ≤ b.edge.id))))

/-- The sorted source sibling group containing `l` (lines 279-295).  With
globally distinct edge ids this is the group whose sort determines the
`sIndex`/`sCount` metadata stored under `l`'s edge id. -/
def sourceGroup (links : List Link) (l : Link) : List Link :=
  (links.filter (fun e => sourceKey e.edge == sourceKey l.edge)).mergeSort sibLeTarget

/-- The sorted target sibling group containing `l` (lines 297-314). -/
def targetGroup (links : List Link) (l : Link) : List Link :=
  (links.filter (fun e => targetKey e.edge == targetKey l.edge)).mergeSort sibLeSource

/-- `sIndex` of `l`: its position in its sorted source group (located by
edge id, as the metadata map is keyed by edge id). -/
def sIndexOf (links : List Link) (l : Link) : Nat :=
  (sourceGroup links l).findIdx (fun e => e.edge.id == l.edge.id)

def sCountOf (links : List Link) (l : Link) : Nat := (sourceGroup links l).length

def tIndexOf (links : List Link) (l : Link) : Nat :=
  (targetGroup links l).findIdx (fun e => e.edge.id == l.edge.id)

def tCountOf (links : List Link) (l : Link) : Nat := (targetGroup links l).length

/-- `updatePositions` (lines 443-465): source and target port of a link. -/
def sourcePt (g : GraphData) (l : Link) : ℚ × ℚ :=
  getPortPosition g l.edge.source l.edge.label true

def targetPt (g : GraphData) (l : Link) : ℚ × ℚ :=
  getPortPosition g l.edge.target l.edge.label false

/-- `dx = Math.abs(targetPt.x - sourcePt.x)`. -/
def dxOf (g : GraphData) (l : Link) : ℚ := |(targetPt g l).1 - (sourcePt g l).1|

/-- `spread = SIBLING_SPREAD * Math.min(1, dx / 120)` with
`SIBLING_SPREAD = 8`. -/
def spreadOf (g : GraphData) (l : Link) : ℚ := 8 * min 1 (dxOf g l / 120)

/-- `sCenter = meta.sIndex - (meta.sCount - 1) / 2`. -/
def sCenterOf (g : GraphData) (l : Link) : ℚ :=
  (sIndexOf (linkData g) l : ℚ) - ((sCountOf (linkData g) l : ℚ) - 1) / 2

/-- `tCenter = meta.tIndex - (meta.tCount - 1) / 2`. -/
def tCenterOf (g : GraphData) (l : Link) : ℚ :=
  (tIndexOf (linkData g) l : ℚ) - ((tCountOf (linkData g) l : ℚ) - 1) / 2

/-- First cubic control point
`(sourcePt.x + dx * 0.5, sourcePt.y + sCenter * spread)`. -/
def controlPoint1 (g : GraphData) (l : Link) : ℚ × ℚ :=
  ((sourcePt g l).1 + dxOf g l / 2, (sourcePt g l).2 + sCenterOf g l * spreadOf g l)

/-- Second cubic control point
`(targetPt.x - dx * 0.5, targetPt.y + tCenter * spread)`. -/
def controlPoint2 (g : GraphData) (l : Link) : ℚ × ℚ :=
  ((targetPt g l).1 - dxOf g l / 2, (targetPt g l).2 + tCenterOf g l * spreadOf g l)

/-- A self-loop listed twice: the back edge `A → A` is discovered once (the
working adjacency is a `Set`), so only the first edge record's id is marked
for removal and the duplicate survives. -/
def gDupSelfLoop : GraphData :=
  { nodes := [{ id := "A" }]
    edges := [⟨"e1", "A", "A", "x"⟩, ⟨"e2", "A", "A", "x"⟩] }

/-- C1: the claim fails on the code.  On a graph with a duplicated
self-loop edge, `breakCycles` removes only the first of the two parallel
edge records, so `ensureAcyclicGraph` returns a graph on which `hasCycle`
is still true — contradicting its own documentation (»Validated acyclic
graph«) and the spec. -/
theorem C1_ensureAcyclic_leaves_cycle :
    hasCycle (ensureAcyclicGraph gDupSelfLoop) = true ∧
    (ensureAcyclicGraph gDupSelfLoop).edges = [⟨"e2", "A", "A", "x"⟩] := by
  constructor <;> decide

/-- Three-node chain used as a witness input. -/
def gChain : GraphData :=
  { nodes := [{ id := "a" }, { id := "b" }, { id := "c" }]
    edges := [⟨"e1", "a", "b", "x"⟩, ⟨"e2", "b", "c", "y"⟩] }

/-- A strictly increasing measure along `gChain`'s edges. -/
def chainMeasure : String → Nat :=
  fun s => if s = "b" then 1 else if s = "c" then 2 else 0

theorem gChain_acyclic : Acyclic gChain := by
  apply acyclic_of_measure chainMeasure
  rintro u v ⟨e, he, hs, ht⟩
  have heff : effEdges gChain = [⟨"e1", "a", "b", "x"⟩, ⟨"e2", "b", "c", "y"⟩] := by
    decide
  rw [heff] at he
  have : e = (⟨"e1", "a", "b", "x"⟩ : Edge) ∨ e = (⟨"e2", "b", "c", "y"⟩ : Edge) := by
    simpa using he
  rcases this with h | h <;> subst h <;> subst hs <;> subst ht <;> decide

/-- C2: on an acyclic graph with distinct node ids whose edges all
reference declared node ids, `topoSort` returns a sequence of length equal
to the node count in which every edge's source has a strictly smaller index
than its target. -/
theorem C2_topoSort_complete_ordered (g : GraphData)
    (hnd : (nodeIds g).Nodup)
    (href : ∀ e ∈ g.edges, e.source ∈ nodeIds g ∧ e.target ∈ nodeIds g)
    (hac : Acyclic g) :
    ∃ l, topoSort g = .ok l ∧ l.length = g.nodes.length ∧
      ∀ e ∈ g.edges, List.indexOf e.source l < List.indexOf e.target l := by
  refine ⟨kahnResult g, topoSort_ok g hnd hac, kahnResult_length g hnd hac, ?_⟩
  intro e he
  have heff : e ∈ effEdges g := by
    rw [effEdges, List.mem_filter]
    refine ⟨he, ?_⟩
    rw [Bool.and_eq_true]
    exact ⟨declared_iff.mpr (href e he).1, declared_iff.mpr (href e he).2⟩
  exact kahnResult_sorted g hnd hac e heff

theorem C2_topoSort_complete_ordered_witness :
    ∃ l, topoSort gChain = .ok l ∧ l.length = gChain.nodes.length ∧
      ∀ e ∈ gChain.edges, List.indexOf e.source l < List.indexOf e.target l :=
  C2_topoSort_complete_ordered gChain (by decide) (by decide) gChain_acyclic

/-- Two-node cycle used as a witness input. -/
def gCyc : GraphData :=
  { nodes := [{ id := "a" }, { id := "b" }]
    edges := [⟨"e1", "a", "b", "x"⟩, ⟨"e2", "b", "a", "y"⟩] }

/-- C3: with distinct node ids, `topoSort` throws whenever a directed cycle
remains among declared nodes; it throws exactly when the zero-in-degree
removal loop ordered fewer ids than there are nodes; and a successful run
returns the loop's entire order, never a truncation. -/
theorem C3_topoSort_throws_on_cycle (g : GraphData) (hnd : (nodeIds g).Nodup) :
    ((∃ u, Relation.TransGen (edgeRel g) u u) →
        topoSort g = .error "Graph has a cycle") ∧
    (topoSort g = .error "Graph has a cycle" ↔
        (kahnResult g).length < g.nodes.length) ∧
    (∀ l, topoSort g = .ok l → l = kahnResult g) := by
  refine ⟨topoSort_cycle_error g hnd, ⟨?_, ?_⟩, ?_⟩
  · intro herr
    rw [topoSort] at herr
    split at herr
    case isTrue h =>
      simp at herr
    case isFalse h =>
      have := kahnResult_length_le g hnd
      omega
  · intro hlt
    rw [topoSort, if_neg (by omega)]
  · intro l hok
    rw [topoSort] at hok
    split at hok
    · injection hok with h
      exact h.symm
    · simp at hok

theorem C3_topoSort_throws_on_cycle_witness :
    ((∃ u, Relation.TransGen (edgeRel gCyc) u u) →
        topoSort gCyc = .error "Graph has a cycle") ∧
    (topoSort gCyc = .error "Graph has a cycle" ↔
        (kahnResult gCyc).length < gCyc.nodes.length) ∧
    (∀ l, topoSort gCyc = .ok l → l = kahnResult gCyc) :=
  C3_topoSort_throws_on_cycle gCyc (by decide)

/-- C4: on edges whose endpoints all occur in a duplicate-free order that
lists every edge's source before its target, the GraphView layer assignment
gives every node its specified layer (0 without incoming edges, otherwise
one more than the maximum layer of the incoming-edge sources), and layers
are strictly increasing along every edge. -/
theorem C4_assignLayers_spec (edges : List Edge) (order : List String)
    (hnd : order.Nodup)
    (hsrc : ∀ e ∈ edges, e.source ∈ order) (htgt : ∀ e ∈ edges, e.target ∈ order)
    (htopo : ∀ e ∈ edges, List.indexOf e.source order < List.indexOf e.target order) :
    (∀ v ∈ order, GoodAt edges (assignLayers edges order) v) ∧
    (∀ e ∈ edges, ∃ ls lt, assignLayers edges order e.source = some ls ∧
      assignLayers edges order e.target = some lt ∧ ls < lt) := by
  obtain ⟨_, hgood⟩ := assignLayersAux_correct edges order hnd hsrc htopo order []
    (fun _ => none) rfl (by simp) (by simp)
  refine ⟨hgood, ?_⟩
  intro e he
  obtain ⟨lt', hlt', _, hb, _⟩ := hgood e.target (htgt e he)
  obtain ⟨ls, hls, hlsl⟩ := hb e he rfl
  exact ⟨ls, lt', hls, hlt', hlsl⟩

def edgesW4 : List Edge :=
  [⟨"e1", "A", "B", "x"⟩, ⟨"e2", "A", "C", "y"⟩, ⟨"e3", "B", "C", "z"⟩]

def orderW4 : List String := ["A", "B", "C"]

theorem C4_assignLayers_spec_witness :
    (∀ v ∈ orderW4, GoodAt edgesW4 (assignLayers edgesW4 orderW4) v) ∧
    (∀ e ∈ edgesW4, ∃ ls lt, assignLayers edgesW4 orderW4 e.source = some ls ∧
      assignLayers edgesW4 orderW4 e.target = some lt ∧ ls < lt) :=
  C4_assignLayers_spec edgesW4 orderW4 (by decide) (by decide) (by decide) (by decide)

/-- C5: the crossing minimizer returns the same partition reordered: the
layer list has the same length, and each output layer is a permutation of
the corresponding input layer — in particular the set of node ids per layer
index is unchanged, and no node moves to a different layer. -/
theorem C5_optimize_preserves_partition (nodesByLayer : List (List Node))
    (edges : List Edge) :
    List.Forall₂
      (fun l' l => l'.Perm l ∧
        (l'.map (fun n => n.id)).toFinset = (l.map (fun n => n.id)).toFinset)
      (optimizeLayerOrdering nodesByLayer edges) nodesByLayer := by
  have h := sweepRounds_perm edges 3 nodesByLayer
  exact h.imp (fun _ _ hperm =>
    ⟨hperm, List.toFinset_eq_of_perm _ _ (hperm.map (fun n => n.id))⟩)

/-- Graph with dangling edge references whose declared part is `a → b`. -/
def gDangling : GraphData :=
  { nodes := [{ id := "a" }, { id := "b" }]
    edges := [⟨"e1", "a", "b", "x"⟩, ⟨"e2", "a", "ghost", "y"⟩,
      ⟨"e3", "phantom", "b", "z"⟩] }

/-- C10: `topoSort` ignores edges with an undeclared endpoint: adjacency
and in-degree are those of the graph restricted to fully declared edges,
`topoSort` returns exactly what it returns on that restriction, and when
the declared part is acyclic the full declared node order is produced
without an error. -/
theorem C10_topoSort_ignores_dangling (g : GraphData) (hnd : (nodeIds g).Nodup) :
    (∀ u, adj g u = adj { nodes := g.nodes, edges := effEdges g } u) ∧
    (∀ v, inDeg g v = inDeg { nodes := g.nodes, edges := effEdges g } v) ∧
    topoSort g = topoSort { nodes := g.nodes, edges := effEdges g } ∧
    (Acyclic g → ∃ l, topoSort g = .ok l ∧ l.length = g.nodes.length ∧
      ∀ v ∈ nodeIds g, v ∈ l) := by
  have heq : effEdges { nodes := g.nodes, edges := effEdges g } = effEdges g := by
    rw [effEdges, effEdges, List.filter_filter]
    apply List.filter_congr
    intro e _
    exact Bool.and_self _
  have hadj : ∀ u, adj g u = adj { nodes := g.nodes, edges := effEdges g } u := by
    intro u
    rw [adj, adj, heq]
  have hdeg : ∀ v, inDeg g v = inDeg { nodes := g.nodes, edges := effEdges g } v := by
    intro v
    rw [inDeg, inDeg, heq]
  refine ⟨hadj, hdeg, ?_, ?_⟩
  · have hdegf : inDeg g = inDeg { nodes := g.nodes, edges := effEdges g } :=
      funext hdeg
    have hq : initQueue g = initQueue { nodes := g.nodes, edges := effEdges g } := by
      rw [initQueue, initQueue, hdegf]
      rfl
    have hloop : ∀ fuel queue result deg,
        kahnLoop g fuel queue result deg =
          kahnLoop { nodes := g.nodes, edges := effEdges g } fuel queue result deg := by
      intro fuel
      induction fuel with
      | zero => intro queue result deg; rfl
      | succ f ih =>
        intro queue result deg
        cases queue with
        | nil => rfl
        | cons u rest =>
          simp only [kahnLoop]
          rw [← hadj u]
          exact ih _ _ _
    rw [topoSort, topoSort, kahnResult, kahnResult, hdegf, hq, hloop]
  · intro hac
    refine ⟨kahnResult g, topoSort_ok g hnd hac, kahnResult_length g hnd hac, ?_⟩
    exact kahn_complete g hnd hac

theorem mergeSort_pair {α : Type} (le : α → α → Bool) (a b : α) :
    [a, b].mergeSort le = if le a b then [a, b] else [b, a] := by
  simp [List.mergeSort, List.merge]

/-- Two-layer input separating y-order from index-order: in layer 0 the
node at index 0 has the larger y. -/
def nP0 : Node := { id := "P0", y := some 100 }

def nP1 : Node := { id := "P1", y := some 0 }

def nA : Node := { id := "a", y := some 0 }

def nB : Node := { id := "b", y := some 0 }

def layersC6 : List (List Node) := [[nP0, nP1], [nA, nB]]

def edgesC6 : List Edge := [⟨"e1", "P0", "a", "l"⟩, ⟨"e2", "P1", "b", "l"⟩]

theorem baryA : baryIn edgesC6 [nP0, nP1] nA = 100 := by
  simp [baryIn, parentsIn, parentsOf, edgesC6, nA, nP0, nP1, calculateBarycenter, yOf,
    List.find?, List.filterMap]

theorem baryB : baryIn edgesC6 [nP0, nP1] nB = 0 := by
  simp [baryIn, parentsIn, parentsOf, edgesC6, nA, nB, nP0, nP1, calculateBarycenter, yOf,
    List.find?, List.filterMap]

theorem sortAB : sortByBaryIn edgesC6 [nP0, nP1] [nA, nB] = [nB, nA] := by
  rw [sortByBaryIn, mergeSort_pair, baryA, baryB]
  norm_num

theorem fwd1 : forwardSweep edgesC6 layersC6 = [[nP0, nP1], [nB, nA]] := by
  rw [layersC6, forwardSweep, forwardSweepAux, forwardSweepAux, sortAB]

theorem baryOutP0 : baryOut edgesC6 [nB, nA] nP0 = 0 := by
  simp [baryOut, childrenIn, childrenOf, edgesC6, nA, nB, nP0, calculateBarycenter, yOf,
    List.find?, List.filterMap]

theorem baryOutP1 : baryOut edgesC6 [nB, nA] nP1 = 0 := by
  simp [baryOut, childrenIn, childrenOf, edgesC6, nA, nB, nP1, calculateBarycenter, yOf,
    List.find?, List.filterMap]

theorem sortP : sortByBaryOut edgesC6 [nB, nA] [nP0, nP1] = [nP0, nP1] := by
  rw [sortByBaryOut, mergeSort_pair, baryOutP0, baryOutP1]
  norm_num

theorem bwd1 : backwardSweep edgesC6 [[nP0, nP1], [nB, nA]] = [[nP0, nP1], [nB, nA]] := by
  rw [backwardSweep]
  simp only [List.reverse_cons, List.reverse_nil, List.nil_append, List.singleton_append]
  rw [backwardSweepAux, backwardSweepAux, sortP]
  rfl

theorem sortBA : sortByBaryIn edgesC6 [nP0, nP1] [nB, nA] = [nB, nA] := by
  rw [sortByBaryIn, mergeSort_pair, baryA, baryB]
  norm_num

theorem fwd2 : forwardSweep edgesC6 [[nP0, nP1], [nB, nA]] = [[nP0, nP1], [nB, nA]] := by
  rw [forwardSweep, forwardSweepAux, forwardSweepAux, sortBA]

theorem codeOpt : optimizeLayerOrdering layersC6 edgesC6 = [[nP0, nP1], [nB, nA]] := by
  rw [optimizeLayerOrdering, sweepRounds, fwd1, bwd1, sweepRounds, fwd2, bwd1,
    sweepRounds, fwd2, bwd1, sweepRounds]

theorem specBaryInA : specIdxBaryIn edgesC6 [nP0, nP1] nA = 0 := by
  simp [specIdxBaryIn, parentsOf, edgesC6, nA, nP0, nP1, List.findIdx?]

theorem specBaryInB : specIdxBaryIn edgesC6 [nP0, nP1] nB = 1 := by
  simp [specIdxBaryIn, parentsOf, edgesC6, nB, nP0, nP1, List.findIdx?]

theorem specSortAB : specSortIn edgesC6 [nP0, nP1] [nA, nB] = [nA, nB] := by
  rw [specSortIn, mergeSort_pair, specBaryInA, specBaryInB]
  norm_num

theorem specFwd : specForwardSweep edgesC6 layersC6 = layersC6 := by
  rw [layersC6, specForwardSweep, specForwardSweepAux, specForwardSweepAux, specSortAB]

theorem specBaryOutP0 : specIdxBaryOut edgesC6 [nA, nB] nP0 = 0 := by
  simp [specIdxBaryOut, childrenOf, edgesC6, nA, nB, nP0, List.findIdx?]

theorem specBaryOutP1 : specIdxBaryOut edgesC6 [nA, nB] nP1 = 1 := by
  simp [specIdxBaryOut, childrenOf, edgesC6, nA, nB, nP1, List.findIdx?]

theorem specSortP : specSortOut edgesC6 [nA, nB] [nP0, nP1] = [nP0, nP1] := by
  rw [specSortOut, mergeSort_pair, specBaryOutP0, specBaryOutP1]
  norm_num

theorem specBwd : specBackwardSweep edgesC6 layersC6 = layersC6 := by
  rw [layersC6, specBackwardSweep]
  simp only [List.reverse_cons, List.reverse_nil, List.nil_append, List.singleton_append]
  rw [specBackwardSweepAux, specBackwardSweepAux, specSortP]
  rfl

theorem specOpt : specOptimizeLayerOrdering layersC6 edgesC6 = layersC6 := by
  rw [specOptimizeLayerOrdering, specSweepRounds, specFwd, specBwd,
    specSweepRounds, specFwd, specBwd, specSweepRounds, specFwd, specBwd, specSweepRounds]

/-- C6: the claim fails on the code.  The sweeps sort by the nodes' stored
y-coordinates, not by positional index: with `P0` (y = 100) at index 0 and
`P1` (y = 0) at index 1 feeding `a` and `b` respectively, the minimizer
reorders layer 1 to `[b, a]`, whereas re-sorting by the mean positional
index of the predecessors (the spec's wording, `specOptimizeLayerOrdering`)
keeps `[a, b]`. -/
theorem C6_code_sorts_by_y_not_index :
    optimizeLayerOrdering layersC6 edgesC6 = [[nP0, nP1], [nB, nA]] ∧
    specOptimizeLayerOrdering layersC6 edgesC6 = [[nP0, nP1], [nA, nB]] ∧
    optimizeLayerOrdering layersC6 edgesC6 ≠ specOptimizeLayerOrdering layersC6 edgesC6 := by
  refine ⟨codeOpt, specOpt, ?_⟩
  rw [codeOpt, specOpt, layersC6]
  intro hcontra
  simp [nA, nB, nP0, nP1] at hcontra

/-- C6 (amended): in every sweep the minimizer re-sorts a layer by the mean
of its neighbours' stored y-coordinates (an unset y reading as 0) in the
adjacent layer — predecessors in the forward sweep, successors in the
backward sweep: each re-sorted layer is a permutation of the old one,
ordered by that key, and a node with no resolved neighbours has key 0 (so
it sorts toward the front among nonnegative keys). -/
theorem C6_sweeps_sort_by_mean_y (edges : List Edge)
    (prevLayer nextLayer layer : List Node) :
    (sortByBaryIn edges prevLayer layer).Perm layer ∧
    (sortByBaryIn edges prevLayer layer).Pairwise
      (fun a b => baryIn edges prevLayer a ≤ baryIn edges prevLayer b) ∧
    (sortByBaryOut edges nextLayer layer).Perm layer ∧
    (sortByBaryOut edges nextLayer layer).Pairwise
      (fun a b => baryOut edges nextLayer a ≤ baryOut edges nextLayer b) ∧
    (∀ a : Node, parentsIn edges prevLayer a = [] → baryIn edges prevLayer a = 0) ∧
    (∀ a : Node, childrenIn edges nextLayer a = [] → baryOut edges nextLayer a = 0) := by
  refine ⟨List.mergeSort_perm _ _, sortByBaryIn_sorted _ _ _,
    List.mergeSort_perm _ _, sortByBaryOut_sorted _ _ _, ?_, ?_⟩
  · intro a ha
    rw [baryIn, ha, calculateBarycenter]
    simp
  · intro a ha
    rw [baryOut, ha, calculateBarycenter]
    simp

theorem C6_sweeps_sort_by_mean_y_witness :
    (sortByBaryIn edgesC6 [nP0, nP1] [nA, nB]).Perm [nA, nB] ∧
    (sortByBaryIn edgesC6 [nP0, nP1] [nA, nB]).Pairwise
      (fun a b => baryIn edgesC6 [nP0, nP1] a ≤ baryIn edgesC6 [nP0, nP1] b) ∧
    (sortByBaryOut edgesC6 [nA, nB] [nA, nB]).Perm [nA, nB] ∧
    (sortByBaryOut edgesC6 [nA, nB] [nA, nB]).Pairwise
      (fun a b => baryOut edgesC6 [nA, nB] a ≤ baryOut edgesC6 [nA, nB] b) ∧
    (∀ a : Node, parentsIn edgesC6 [nP0, nP1] a = [] → baryIn edgesC6 [nP0, nP1] a = 0) ∧
    (∀ a : Node, childrenIn edgesC6 [nA, nB] a = [] → baryOut edgesC6 [nA, nB] a = 0) :=
  C6_sweeps_sort_by_mean_y edgesC6 [nP0, nP1] [nA, nB] [nA, nB]

/-- Raw input whose single edge references the unknown node id `ghost`. -/
def rawNodesC7 : List RawNode := [.obj { id := some "a" }]

def rawEdgesC7 : List RawEdge :=
  [{ id := some "e1", source := some "a", target := some "ghost", label := some "x" }]

/-- C7: the claim fails on the code.  `normalize` keeps the coerced edge
`a → ghost` although `ghost` resolves to no node id, and the edge is still
present in the graph handed to (and returned by) the cycle resolver. -/
theorem C7_dangling_edge_survives :
    (⟨"e1", "a", "ghost", "x"⟩ : Edge) ∈ (normalize rawNodesC7 rawEdgesC7).edges ∧
    declared (normalize rawNodesC7 rawEdgesC7) "ghost" = false ∧
    (⟨"e1", "a", "ghost", "x"⟩ : Edge) ∈
      (ensureAcyclicGraph (normalize rawNodesC7 rawEdgesC7)).edges := by
  refine ⟨by decide, by decide, by decide⟩

/-- C7 (amended): normalization drops exactly the coerced edges whose
source or target string is empty; node-id resolution is never consulted
(the produced edge list does not depend on the node list at all), so an
edge with a dangling endpoint is kept and does reach the cycle resolver. -/
theorem C7_normalize_keeps_nonempty (rawNodes : List RawNode) (rawEdges : List RawEdge)
    (e : Edge) :
    (e ∈ (normalize rawNodes rawEdges).edges ↔
      (∃ p ∈ rawEdges.enum, coerceEdge p.1 p.2 = e) ∧ e.source ≠ "" ∧ e.target ≠ "") ∧
    (normalize rawNodes rawEdges).edges = (normalize [] rawEdges).edges := by
  constructor
  · constructor
    · intro hmem
      simp only [normalize, List.mem_filter, List.mem_map] at hmem
      obtain ⟨⟨p, hp, hpe⟩, hpred⟩ := hmem
      simp only [Bool.and_eq_true, Bool.not_eq_true', beq_eq_false_iff_ne] at hpred
      exact ⟨⟨p, hp, hpe⟩, hpred.1, hpred.2⟩
    · rintro ⟨⟨p, hp, hpe⟩, hs, ht⟩
      simp only [normalize, List.mem_filter, List.mem_map]
      refine ⟨⟨p, hp, hpe⟩, ?_⟩
      simp only [Bool.and_eq_true, Bool.not_eq_true', beq_eq_false_iff_ne]
      exact ⟨hs, ht⟩
  · rfl

theorem inputsFold_spec (v : String) :
    ∀ (es : List Edge) (acc : List String), acc.Nodup →
      (es.foldl (fun acc e =>
        if e.target == v && !(acc.contains e.label) then acc ++ [e.label] else acc)
          acc).Nodup ∧
      (∀ x, x ∈ es.foldl (fun acc e =>
          if e.target == v && !(acc.contains e.label) then acc ++ [e.label] else acc) acc ↔
        x ∈ acc ∨ ∃ e ∈ es, e.target = v ∧ e.label = x) := by
  intro es
  induction es with
  | nil =>
    intro acc hacc
    exact ⟨hacc, by simp⟩
  | cons e es ih =>
    intro acc hacc
    simp only [List.foldl_cons]
    by_cases hcond : (e.target == v && !(acc.contains e.label)) = true
    · rw [if_pos hcond]
      rw [Bool.and_eq_true] at hcond
      have ht' : e.target = v := by simpa using hcond.1
      have hnc' : e.label ∉ acc := by
        have := hcond.2
        simp only [Bool.not_eq_true', List.elem_iff] at this
        simpa [List.elem_iff] using this
      have hacc' : (acc ++ [e.label]).Nodup := by
        simp [List.nodup_append, hacc, hnc']
      obtain ⟨h1, h2⟩ := ih (acc ++ [e.label]) hacc'
      refine ⟨h1, ?_⟩
      intro x
      rw [h2 x]
      simp only [List.mem_append, List.mem_singleton]
      constructor
      · rintro ((hx | hx) | hx)
        · exact Or.inl hx
        · exact Or.inr ⟨e, List.mem_cons_self _ _, ht', hx.symm⟩
        · rcases hx with ⟨e', he', ht'', hl⟩
          exact Or.inr ⟨e', List.mem_cons_of_mem _ he', ht'', hl⟩
      · rintro (hx | ⟨e', he', ht'', hl⟩)
        · exact Or.inl (Or.inl hx)
        · rcases List.mem_cons.mp he' with rfl | he''
          · exact Or.inl (Or.inr hl.symm)
          · exact Or.inr ⟨e', he'', ht'', hl⟩
    · rw [if_neg hcond]
      obtain ⟨h1, h2⟩ := ih acc hacc
      refine ⟨h1, ?_⟩
      intro x
      rw [h2 x]
      constructor
      · rintro (hx | ⟨e', he', ht'', hl⟩)
        · exact Or.inl hx
        · exact Or.inr ⟨e', List.mem_cons_of_mem _ he', ht'', hl⟩
      · rintro (hx | ⟨e', he', ht'', hl⟩)
        · exact Or.inl hx
        · rcases List.mem_cons.mp he' with rfl | he''
          · have hlb : e'.label ∈ acc := by
              by_contra hc
              apply hcond
              simp only [Bool.and_eq_true, beq_iff_eq, Bool.not_eq_true']
              refine ⟨ht'', ?_⟩
              simpa [List.elem_iff] using hc
            exact Or.inl (hl ▸ hlb)
          · exact Or.inr ⟨e', he'', ht'', hl⟩

theorem find?_of_nodup_mem :
    ∀ {nodes : List Node}, (nodes.map (fun n => n.id)).Nodup →
      ∀ {n : Node}, n ∈ nodes → nodes.find? (fun m => m.id == n.id) = some n := by
  intro nodes
  induction nodes with
  | nil =>
    intro _ n hn
    simp at hn
  | cons m ms ih =>
    intro hnd n hn
    have hnd0 : (m.id :: ms.map (fun n => n.id)).Nodup := by simpa using hnd
    have hnd' := List.nodup_cons.mp hnd0
    by_cases h : m.id = n.id
    · have hmn : n = m := by
        rcases List.mem_cons.mp hn with h' | h'
        · exact h'
        · exfalso
          have hmem : n.id ∈ ms.map (fun n => n.id) := List.mem_map_of_mem _ h'
          exact hnd'.1 (h ▸ hmem)
      subst hmn
      rw [List.find?_cons_of_pos _ (by simp)]
    · rw [List.find?_cons_of_neg _ (by simpa using h)]
      apply ih hnd'.2
      rcases List.mem_cons.mp hn with h' | h'
      · exact absurd (h' ▸ rfl) h
      · exact h'

/-- C9: the computed node height is a fixed 28px header over a body that is
the larger of the 80px floor and 32px per port row, the row count being the
larger of the output count and the number of distinct incoming edge
labels. -/
theorem C9_nodeHeight_formula (g : GraphData) (hnd : (nodeIds g).Nodup) :
    ∀ n ∈ g.nodes, nodeHeights g n.id =
      some (28 + max 80 (32 * max
        (((g.edges.filter (fun e => e.target == n.id)).map (fun e => e.label)).toFinset.card)
        n.outputs.length)) := by
  intro n hn
  rw [nodeHeights, find?_of_nodup_mem (by simpa [nodeIds] using hnd) hn, Option.map_some']
  have hdecl : declared g n.id = true :=
    declared_iff.mpr (by simpa [nodeIds] using List.mem_map_of_mem (fun n => n.id) hn)
  have hlen : (inputsByNode g n.id).length =
      ((g.edges.filter (fun e => e.target == n.id)).map (fun e => e.label)).toFinset.card := by
    rw [inputsByNode, if_pos hdecl]
    obtain ⟨h1, h2⟩ := inputsFold_spec n.id g.edges [] (by simp)
    rw [← List.toFinset_card_of_nodup h1]
    congr 1
    ext x
    simp only [List.mem_toFinset, List.mem_map, List.mem_filter]
    rw [h2 x]
    simp only [List.not_mem_nil, false_or, beq_iff_eq]
    constructor
    · rintro ⟨e, he, ht, hl⟩
      exact ⟨e, ⟨he, ht⟩, hl⟩
    · rintro ⟨e, ⟨he, ht⟩, hl⟩
      exact ⟨e, he, ht, hl⟩
  rw [nodeHeight, hlen]
  congr 1
  omega

/-- The spec's port scenario: `A` with two outputs feeding `B` on labels
`x` and `y`. -/
def gPorts : GraphData :=
  { nodes := [{ id := "A", outputs := ["x", "y"] }, { id := "B" }]
    edges := [⟨"e1", "A", "B", "x"⟩, ⟨"e2", "A", "B", "y"⟩] }

theorem C9_nodeHeight_formula_witness :
    nodeHeights gPorts "A" = some 108 ∧ nodeHeights gPorts "B" = some 108 := by
  constructor
  · exact (C9_nodeHeight_formula gPorts (by decide)
      { id := "A", outputs := ["x", "y"] } (by decide)).trans (by decide)
  · exact (C9_nodeHeight_formula gPorts (by decide)
      { id := "B" } (by decide)).trans (by decide)

/-- Fan-out pair `A → B`, `A → C` on the shared label `log`, with both
targets dragged to the x position where the target ports sit exactly at the
source port's x coordinate (dx = 0). -/
def nA8 : Node := { id := "A", label := "A", outputs := ["log"], x := some 0, y := some 0 }

def nB8 : Node := { id := "B", label := "B", x := some 172, y := some 0 }

def nC8 : Node := { id := "C", label := "C", x := some 172, y := some 100 }

def eAB : Edge := ⟨"e1", "A", "B", "log"⟩

def eAC : Edge := ⟨"e2", "A", "C", "log"⟩

def gFan0 : GraphData := { nodes := [nA8, nB8, nC8], edges := [eAB, eAC] }

def lAB : Link := ⟨eAB, nA8, nB8⟩

def lAC : Link := ⟨eAC, nA8, nC8⟩

theorem hlink : linkData gFan0 = [lAB, lAC] := rfl

theorem hwA : nodeWidth gFan0 nA8 = 160 := by
  rw [nodeWidth]
  have h1 : inputsByNode gFan0 nA8.id = [] := by decide
  have h2 : ("log" : String).length = 3 := rfl
  have h3 : (nA8.label).length = 1 := rfl
  have h4 : nA8.outputs = ["log"] := rfl
  rw [h1, h4]
  simp only [h2, h3, List.map_cons, List.map_nil, List.foldl_cons, List.foldl_nil]
  norm_num [min_def, max_def]

theorem hwB : nodeWidth gFan0 nB8 = 160 := by
  rw [nodeWidth]
  have h1 : inputsByNode gFan0 nB8.id = ["log"] := by decide
  have h2 : ("log" : String).length = 3 := rfl
  have h3 : (nB8.label).length = 1 := rfl
  have h4 : nB8.outputs = [] := rfl
  rw [h1, h4]
  simp only [h2, h3, List.map_cons, List.map_nil, List.foldl_cons, List.foldl_nil]
  norm_num [min_def, max_def]

theorem hwC : nodeWidth gFan0 nC8 = 160 := by
  rw [nodeWidth]
  have h1 : inputsByNode gFan0 nC8.id = ["log"] := by decide
  have h2 : ("log" : String).length = 3 := rfl
  have h3 : (nC8.label).length = 1 := rfl
  have h4 : nC8.outputs = [] := rfl
  rw [h1, h4]
  simp only [h2, h3, List.map_cons, List.map_nil, List.foldl_cons, List.foldl_nil]
  norm_num [min_def, max_def]

theorem hhA : nodeHeight gFan0 nA8 = 108 := by decide

theorem hhB : nodeHeight gFan0 nB8 = 108 := by decide

theorem hhC : nodeHeight gFan0 nC8 = 108 := by decide

theorem hportA : getPortPosition gFan0 "A" "log" true = (86, -8) := by
  have hfind : gFan0.nodes.find? (fun n => n.id == "A") = some nA8 := rfl
  rw [getPortPosition, hfind]
  have houts : nA8.outputs = ["log"] := rfl
  have hx : nA8.x = some 0 := rfl
  have hy : nA8.y = some 0 := rfl
  simp only [houts, hx, hy, List.findIdx?, hhA, hwA]
  norm_num

theorem hportB : getPortPosition gFan0 "B" "log" false = (86, -8) := by
  have hfind : gFan0.nodes.find? (fun n => n.id == "B") = some nB8 := rfl
  rw [getPortPosition, hfind]
  have hinp : inputsByNode gFan0 nB8.id = ["log"] := by decide
  have hx : nB8.x = some 172 := rfl
  have hy : nB8.y = some 0 := rfl
  simp only [hinp, hx, hy, List.findIdx?, hhB, hwB, eAB, eAC]
  norm_num

theorem hportC : getPortPosition gFan0 "C" "log" false = (86, 92) := by
  have hfind : gFan0.nodes.find? (fun n => n.id == "C") = some nC8 := rfl
  rw [getPortPosition, hfind]
  have hinp : inputsByNode gFan0 nC8.id = ["log"] := by decide
  have hx : nC8.x = some 172 := rfl
  have hy : nC8.y = some 100 := rfl
  simp only [hinp, hx, hy, List.findIdx?, hhC, hwC, eAB, eAC]
  norm_num

theorem hsrcAB : sourcePt gFan0 lAB = (86, -8) := by
  rw [sourcePt]
  exact hportA

theorem hsrcAC : sourcePt gFan0 lAC = (86, -8) := by
  rw [sourcePt]
  exact hportA

theorem htgtAB : targetPt gFan0 lAB = (86, -8) := by
  rw [targetPt]
  exact hportB

theorem htgtAC : targetPt gFan0 lAC = (86, 92) := by
  rw [targetPt]
  exact hportC

theorem hdxAB : dxOf gFan0 lAB = 0 := by
  rw [dxOf, hsrcAB, htgtAB]
  norm_num

theorem hdxAC : dxOf gFan0 lAC = 0 := by
  rw [dxOf, hsrcAC, htgtAC]
  norm_num

theorem hspreadAB : spreadOf gFan0 lAB = 0 := by
  rw [spreadOf, hdxAB]
  norm_num

theorem hspreadAC : spreadOf gFan0 lAC = 0 := by
  rw [spreadOf, hdxAC]
  norm_num

theorem hgrpAB : sourceGroup (linkData gFan0) lAB = [lAB, lAC] := by
  rw [sourceGroup]
  have hfilt : (linkData gFan0).filter
      (fun e => sourceKey e.edge == sourceKey lAB.edge) = [lAB, lAC] := rfl
  rw [hfilt, mergeSort_pair]
  have hle : sibLeTarget lAB lAC = true := by
    rw [sibLeTarget, decide_eq_true_eq]
    left
    norm_num [yOf, lAB, lAC, nB8, nC8]
  rw [hle]
  rfl

theorem hc1AB : controlPoint1 gFan0 lAB = (86, -8) := by
  rw [controlPoint1, hsrcAB, hdxAB, hspreadAB]
  norm_num

theorem hc1AC : controlPoint1 gFan0 lAC = (86, -8) := by
  rw [controlPoint1, hsrcAC, hdxAC, hspreadAC]
  norm_num

/-- C8: the claim fails on the code.  For a fan-out sibling group of two
(same source `A`, same label `log`, distinct targets) whose endpoints are
vertically aligned (the horizontal port distance dx is 0, as reachable by
dragging), the spread scale `min(1, dx/120)` collapses to 0: both edges'
vertical offsets are 0 and their first control points coincide exactly. -/
theorem C8_coincident_at_zero_dx :
    linkData gFan0 = [lAB, lAC] ∧
    lAB.edge.source = lAC.edge.source ∧ lAB.edge.label = lAC.edge.label ∧
    lAB.edge.target ≠ lAC.edge.target ∧
    sourceGroup (linkData gFan0) lAB = [lAB, lAC] ∧
    spreadOf gFan0 lAB = 0 ∧ spreadOf gFan0 lAC = 0 ∧
    controlPoint1 gFan0 lAB = controlPoint1 gFan0 lAC :=
  ⟨hlink, rfl, rfl, by decide, hgrpAB, hspreadAB, hspreadAC, by rw [hc1AB, hc1AC]⟩

/-- C8 (amended): for a sibling fan-out pair — two links with the same
source and label whose sorted source group is exactly the pair — whose
endpoints are horizontally separated (dx > 0 on both edges, as holds for
pipeline-computed layouts), the two edges' first control points are offset
vertically in opposite directions around the shared source port
(−spread/2 and +spread/2, spread > 0) and are never coincident. -/
theorem C8_sibling_pair_spread (g : GraphData) (a b : Link)
    (hsame : b.edge.source = a.edge.source) (hlab : b.edge.label = a.edge.label)
    (hid : a.edge.id ≠ b.edge.id)
    (hgrp : sourceGroup (linkData g) a = [a, b])
    (hdxa : 0 < dxOf g a) (hdxb : 0 < dxOf g b) :
    0 < spreadOf g a ∧ 0 < spreadOf g b ∧
    sCenterOf g a = -(1/2) ∧ sCenterOf g b = 1/2 ∧
    (controlPoint1 g a).2 = (sourcePt g a).2 - spreadOf g a / 2 ∧
    (controlPoint1 g b).2 = (sourcePt g b).2 + spreadOf g b / 2 ∧
    sourcePt g a = sourcePt g b ∧
    controlPoint1 g a ≠ controlPoint1 g b := by
  have hkey : sourceKey b.edge = sourceKey a.edge := by
    rw [sourceKey, sourceKey, hsame, hlab]
  have hgrpb : sourceGroup (linkData g) b = [a, b] := by
    rw [sourceGroup, hkey]
    exact hgrp
  have hspa : 0 < spreadOf g a := by
    rw [spreadOf]
    have h1 : (0:ℚ) < min 1 (dxOf g a / 120) := lt_min (by norm_num) (by positivity)
    linarith
  have hspb : 0 < spreadOf g b := by
    rw [spreadOf]
    have h1 : (0:ℚ) < min 1 (dxOf g b / 120) := lt_min (by norm_num) (by positivity)
    linarith
  have hsia : sIndexOf (linkData g) a = 0 := by
    rw [sIndexOf, hgrp, List.findIdx_cons]
    simp
  have hsib : sIndexOf (linkData g) b = 1 := by
    rw [sIndexOf, hgrpb, List.findIdx_cons]
    have hne : (a.edge.id == b.edge.id) = false := beq_eq_false_iff_ne.mpr hid
    simp [hne, List.findIdx_cons]
  have hsca : sCountOf (linkData g) a = 2 := by
    rw [sCountOf, hgrp]
    rfl
  have hscb : sCountOf (linkData g) b = 2 := by
    rw [sCountOf, hgrpb]
    rfl
  have hcena : sCenterOf g a = -(1/2) := by
    rw [sCenterOf, hsia, hsca]
    norm_num
  have hcenb : sCenterOf g b = 1/2 := by
    rw [sCenterOf, hsib, hscb]
    norm_num
  have hspt : sourcePt g a = sourcePt g b := by
    rw [sourcePt, sourcePt, hsame, hlab]
  have hc1a : (controlPoint1 g a).2 = (sourcePt g a).2 - spreadOf g a / 2 := by
    rw [controlPoint1, hcena]
    show (sourcePt g a).2 + -(1/2) * spreadOf g a = (sourcePt g a).2 - spreadOf g a / 2
    ring
  have hc1b : (controlPoint1 g b).2 = (sourcePt g b).2 + spreadOf g b / 2 := by
    rw [controlPoint1, hcenb]
    show (sourcePt g b).2 + 1/2 * spreadOf g b = (sourcePt g b).2 + spreadOf g b / 2
    ring
  refine ⟨hspa, hspb, hcena, hcenb, hc1a, hc1b, hspt, ?_⟩
  intro hcontra
  rw [controlPoint1, controlPoint1] at hcontra
  simp only [Prod.mk.injEq] at hcontra
  obtain ⟨hx, hy⟩ := hcontra
  have hfst : (sourcePt g a).1 = (sourcePt g b).1 := congrArg Prod.fst hspt
  have hsnd : (sourcePt g a).2 = (sourcePt g b).2 := congrArg Prod.snd hspt
  have hdx : dxOf g a = dxOf g b := by linarith
  have hspread : spreadOf g a = spreadOf g b := by rw [spreadOf, spreadOf, hdx]
  rw [hcena, hcenb] at hy
  linarith

/-- The same fan-out pair with the targets a full layer to the right
(dx = 128 > 0). -/
def nB9 : Node := { id := "B", label := "B", x := some 300, y := some 0 }

def nC9 : Node := { id := "C", label := "C", x := some 300, y := some 100 }

def gFan1 : GraphData := { nodes := [nA8, nB9, nC9], edges := [eAB, eAC] }

def lAB9 : Link := ⟨eAB, nA8, nB9⟩

def lAC9 : Link := ⟨eAC, nA8, nC9⟩

theorem hwA9 : nodeWidth gFan1 nA8 = 160 := by
  rw [nodeWidth]
  have h1 : inputsByNode gFan1 nA8.id = [] := by decide
  have h2 : ("log" : String).length = 3 := rfl
  have h3 : (nA8.label).length = 1 := rfl
  have h4 : nA8.outputs = ["log"] := rfl
  rw [h1, h4]
  simp only [h2, h3, List.map_cons, List.map_nil, List.foldl_cons, List.foldl_nil]
  norm_num [min_def, max_def]

theorem hwB9 : nodeWidth gFan1 nB9 = 160 := by
  rw [nodeWidth]
  have h1 : inputsByNode gFan1 nB9.id = ["log"] := by decide
  have h2 : ("log" : String).length = 3 := rfl
  have h3 : (nB9.label).length = 1 := rfl
  have h4 : nB9.outputs = [] := rfl
  rw [h1, h4]
  simp only [h2, h3, List.map_cons, List.map_nil, List.foldl_cons, List.foldl_nil]
  norm_num [min_def, max_def]

theorem hwC9 : nodeWidth gFan1 nC9 = 160 := by
  rw [nodeWidth]
  have h1 : inputsByNode gFan1 nC9.id = ["log"] := by decide
  have h2 : ("log" : String).length = 3 := rfl
  have h3 : (nC9.label).length = 1 := rfl
  have h4 : nC9.outputs = [] := rfl
  rw [h1, h4]
  simp only [h2, h3, List.map_cons, List.map_nil, List.foldl_cons, List.foldl_nil]
  norm_num [min_def, max_def]

theorem hhA9 : nodeHeight gFan1 nA8 = 108 := by decide

theorem hhB9 : nodeHeight gFan1 nB9 = 108 := by decide

theorem hhC9 : nodeHeight gFan1 nC9 = 108 := by decide

theorem hportA9 : getPortPosition gFan1 "A" "log" true = (86, -8) := by
  have hfind : gFan1.nodes.find? (fun n => n.id == "A") = some nA8 := rfl
  rw [getPortPosition, hfind]
  have houts : nA8.outputs = ["log"] := rfl
  have hx : nA8.x = some 0 := rfl
  have hy : nA8.y = some 0 := rfl
  simp only [houts, hx, hy, List.findIdx?, hhA9, hwA9]
  norm_num

theorem hportB9 : getPortPosition gFan1 "B" "log" false = (214, -8) := by
  have hfind : gFan1.nodes.find? (fun n => n.id == "B") = some nB9 := rfl
  rw [getPortPosition, hfind]
  have hinp : inputsByNode gFan1 nB9.id = ["log"] := by decide
  have hx : nB9.x = some 300 := rfl
  have hy : nB9.y = some 0 := rfl
  simp only [hinp, hx, hy, List.findIdx?, hhB9, hwB9, eAB, eAC]
  norm_num

theorem hportC9 : getPortPosition gFan1 "C" "log" false = (214, 92) := by
  have hfind : gFan1.nodes.find? (fun n => n.id == "C") = some nC9 := rfl
  rw [getPortPosition, hfind]
  have hinp : inputsByNode gFan1 nC9.id = ["log"] := by decide
  have hx : nC9.x = some 300 := rfl
  have hy : nC9.y = some 100 := rfl
  simp only [hinp, hx, hy, List.findIdx?, hhC9, hwC9, eAB, eAC]
  norm_num

theorem hdxAB9 : dxOf gFan1 lAB9 = 128 := by
  rw [dxOf]
  have h1 : sourcePt gFan1 lAB9 = (86, -8) := by rw [sourcePt]; exact hportA9
  have h2 : targetPt gFan1 lAB9 = (214, -8) := by rw [targetPt]; exact hportB9
  rw [h1, h2]
  norm_num

theorem hdxAC9 : dxOf gFan1 lAC9 = 128 := by
  rw [dxOf]
  have h1 : sourcePt gFan1 lAC9 = (86, -8) := by rw [sourcePt]; exact hportA9
  have h2 : targetPt gFan1 lAC9 = (214, 92) := by rw [targetPt]; exact hportC9
  rw [h1, h2]
  norm_num

theorem hgrp9 : sourceGroup (linkData gFan1) lAB9 = [lAB9, lAC9] := by
  rw [sourceGroup]
  have hfilt : (linkData gFan1).filter
      (fun e => sourceKey e.edge == sourceKey lAB9.edge) = [lAB9, lAC9] := rfl
  rw [hfilt, mergeSort_pair]
  have hle : sibLeTarget lAB9 lAC9 = true := by
    rw [sibLeTarget, decide_eq_true_eq]
    left
    norm_num [yOf, lAB9, lAC9, nB9, nC9]
  rw [hle]
  rfl

theorem C8_sibling_pair_spread_witness :
    0 < spreadOf gFan1 lAB9 ∧ 0 < spreadOf gFan1 lAC9 ∧
    sCenterOf gFan1 lAB9 = -(1/2) ∧ sCenterOf gFan1 lAC9 = 1/2 ∧
    (controlPoint1 gFan1 lAB9).2 = (sourcePt gFan1 lAB9).2 - spreadOf gFan1 lAB9 / 2 ∧
    (controlPoint1 gFan1 lAC9).2 = (sourcePt gFan1 lAC9).2 + spreadOf gFan1 lAC9 / 2 ∧
    sourcePt gFan1 lAB9 = sourcePt gFan1 lAC9 ∧
    controlPoint1 gFan1 lAB9 ≠ controlPoint1 gFan1 lAC9 :=
  C8_sibling_pair_spread gFan1 lAB9 lAC9 rfl rfl (by decide) hgrp9
    (by rw [hdxAB9]; norm_num) (by rw [hdxAC9]; norm_num)

theorem C10_topoSort_ignores_dangling_witness :
    (∀ u, adj gDangling u = adj { nodes := gDangling.nodes, edges := effEdges gDangling } u) ∧
    (∀ v, inDeg gDangling v = inDeg { nodes := gDangling.nodes, edges := effEdges gDangling } v) ∧
    topoSort gDangling = topoSort { nodes := gDangling.nodes, edges := effEdges gDangling } ∧
    (Acyclic gDangling → ∃ l, topoSort gDangling = .ok l ∧
      l.length = gDangling.nodes.length ∧ ∀ v ∈ nodeIds gDangling, v ∈ l) :=
  C10_topoSort_ignores_dangling gDangling (by decide)

end DAG
